import Mathlib

/-!
Verification development for the ClarityAI prompt-enhancement core.

Strings of the source program are modelled as `List Char` (the source is
TypeScript; we write each regex-based `String.replace` pass as an explicit
left-to-right scan with JavaScript `replace` semantics: leftmost match,
continue after the match end, greedy/lazy quantifier behaviour reproduced
per pattern).  Case mapping models `toLowerCase`/`toUpperCase` on the
ASCII range, which covers every table entry and test input of the source.
-/

set_option maxRecDepth 200000

namespace Clarity

abbrev Str := List Char

/-- ASCII lower-casing, modelling JavaScript `toLowerCase` on the ASCII range. -/
def lowerC (c : Char) : Char :=
  if 'A' ≤ c && c ≤ 'Z' then Char.ofNat (c.toNat + 32) else c

/-- ASCII upper-casing, modelling JavaScript `toUpperCase` on the ASCII range. -/
def upperC (c : Char) : Char :=
  if 'a' ≤ c && c ≤ 'z' then Char.ofNat (c.toNat - 32) else c

/-- The JavaScript regex whitespace class `\s` (common members). -/
def isWsC (c : Char) : Bool :=
  c = ' ' || c = '\t' || c = '\n' || c = '\r' ||
  c = Char.ofNat 11 || c = Char.ofNat 12 || c = Char.ofNat 160

/-- The JavaScript regex word class `\w`, i.e. `[A-Za-z0-9_]`. -/
def isWordC (c : Char) : Bool :=
  ('a' ≤ c && c ≤ 'z') || ('A' ≤ c && c ≤ 'Z') || ('0' ≤ c && c ≤ '9') || c = '_'

def toLowerL (s : Str) : Str := s.map lowerC

/-- `s.dropWhile` keeps at most as many elements. -/
theorem dropWhile_length_le (p : Char → Bool) (s : Str) :
    (s.dropWhile p).length ≤ s.length := by
  induction s with
  | nil => simp
  | cons c t ih =>
    by_cases h : p c
    · simp [List.dropWhile_cons, h]; omega
    · simp [List.dropWhile_cons, h]

theorem dropWhile_cons_pos {p : Char → Bool} {c : Char} {t : Str} (h : p c = true) :
    (c :: t).dropWhile p = t.dropWhile p := by
  simp [List.dropWhile_cons, h]

theorem dropWhile_cons_neg {p : Char → Bool} {c : Char} {t : Str} (h : p c = false) :
    (c :: t).dropWhile p = c :: t := by
  simp [List.dropWhile_cons, h]

/-- JavaScript `String.prototype.trim` (both ends). -/
def trimStart (s : Str) : Str := s.dropWhile isWsC

def trimEnd (s : Str) : Str := (s.reverse.dropWhile isWsC).reverse

def trimStr (s : Str) : Str := trimEnd (trimStart s)

/-! ### The typo table of `autocorrect.ts` (`COMMON_TYPOS`), in source order. -/

def COMMON_TYPOS : List (String × String) :=
  [("functoin", "function"), ("fucntion", "function"), ("funtion", "function"),
   ("retrun", "return"), ("lenght", "length"), ("heigth", "height"),
   ("widht", "width"), ("calulate", "calculate"), ("caluclate", "calculate"),
   ("calcualte", "calculate"), ("varaible", "variable"), ("variabl", "variable"),
   ("variabel", "variable"), ("classs", "class"), ("metod", "method"),
   ("methdo", "method"), ("aray", "array"), ("arry", "array"),
   ("objct", "object"), ("objet", "object"), ("stirng", "string"),
   ("strnig", "string"), ("strign", "string"), ("bolean", "boolean"),
   ("boolen", "boolean"), ("interger", "integer"), ("integr", "integer"),
   ("plese", "please"), ("pleae", "please"), ("pleas", "please"),
   ("writ", "write"), ("wriet", "write"), ("wirte", "write"),
   ("taht", "that"), ("tath", "that"), ("thta", "that"), ("tha", "that"),
   ("fo", "for"), ("fro", "for"), ("ofr", "for"),
   ("an", "and"), ("nad", "and"), ("adn", "and"),
   ("teh", "the"), ("hte", "the"), ("het", "the"),
   ("whit", "with"), ("wiht", "with"), ("wtih", "with"),
   ("wich", "which"), ("whcih", "which"),
   ("hwere", "where"), ("wher", "where"), ("whre", "where"),
   ("wehn", "when"), ("whn", "when"),
   ("waht", "what"), ("hwat", "what"), ("wha", "what"),
   ("sript", "script"), ("scirpt", "script"), ("srcipt", "script"),
   ("opnes", "opens"), ("opne", "open"), ("oepn", "open"),
   ("fibonnaci", "fibonacci"), ("fibonaci", "fibonacci"), ("fiboncci", "fibonacci"),
   ("url", "URL")]

def typoList : List (Str × Str) := COMMON_TYPOS.map (fun p => (p.1.data, p.2.data))

/-- Case-insensitive split: if `s` starts with `w` up to ASCII case, return the
actually matched prefix of `s` together with the remainder. -/
def splitCI : Str → Str → Option (Str × Str)
  | [], s => some ([], s)
  | _ :: _, [] => none
  | a :: w, b :: s =>
    if lowerC a = lowerC b then
      match splitCI w s with
      | some (m, r) => some (b :: m, r)
      | none => none
    else none

theorem splitCI_length {w s m r : Str} (h : splitCI w s = some (m, r)) :
    s.length = w.length + r.length := by
  induction w generalizing s m r with
  | nil => simp [splitCI] at h; simp [h.2]
  | cons a w ih =>
    cases s with
    | nil => simp [splitCI] at h
    | cons b s =>
      by_cases hc : lowerC a = lowerC b
      · simp only [splitCI, if_pos hc] at h
        cases hm : splitCI w s with
        | none => rw [hm] at h; simp at h
        | some p =>
          obtain ⟨m', r'⟩ := p
          rw [hm] at h
          simp at h
          have := ih hm
          simp [← h.2, this]
          omega
      · simp [splitCI, hc] at h

/-- JavaScript `\b` at the position right after a word character of the
pattern: satisfied when the remainder is empty or starts with a non-word char. -/
def boundaryAfter (rest : Str) : Bool :=
  match rest with
  | [] => true
  | c :: _ => !isWordC c

/-- Is the first character upper-case (i.e. fixed by `toUpperCase`)? -/
def headUpper : Str → Bool
  | [] => false
  | c :: _ => upperC c = c

/-- Capitalize the first character and lower-case the rest
(`correction.charAt(0).toUpperCase() + correction.slice(1).toLowerCase()`). -/
def capFirstLower : Str → Str
  | [] => []
  | c :: cs => upperC c :: cs.map lowerC

/-- Case-preservation of `fixTypos`: fully-uppercase match gives an uppercase
replacement, capitalized match capitalizes the replacement, otherwise
the replacement is lower-cased (mirrors the replacer callback in the source). -/
def preserveCase (m corr : Str) : Str :=
  if m.map upperC = m then corr.map upperC
  else if headUpper m then capFirstLower corr
  else corr.map lowerC

/-- One pass of `corrected.replace(new RegExp('\\b' + typo + '\\b', 'gi'), ...)`:
scan left to right; `prevW` records whether the previous character of the
original string is a word character (so `\b` holds before the current
position exactly when `prevW` is false, since every table entry starts with
a word character).  The `fuel` argument only makes the recursion structural;
every step consumes at least one character, so `fuel = s.length` suffices. -/
def replaceWordGo (typo corr : Str) : Nat → Bool → Str → Str
  | 0, _, s => s
  | _ + 1, _, [] => []
  | fuel + 1, prevW, c :: cs =>
    if prevW = false ∧ typo ≠ [] then
      match splitCI typo (c :: cs) with
      | some (m, rest) =>
        if boundaryAfter rest then
          preserveCase m corr ++
            replaceWordGo typo corr fuel
              (match m.getLast? with
               | some lc => isWordC lc
               | none => prevW) rest
        else c :: replaceWordGo typo corr fuel (isWordC c) cs
      | none => c :: replaceWordGo typo corr fuel (isWordC c) cs
    else c :: replaceWordGo typo corr fuel (isWordC c) cs

def replaceWord (typo corr : Str) (s : Str) : Str :=
  replaceWordGo typo corr s.length false s

/-- `fixTypos` from `autocorrect.ts`: fold the whole-word case-insensitive
replacements over the typo table in source order. -/
def fixTypos (s : Str) : Str :=
  typoList.foldl (fun acc p => replaceWord p.1 p.2 acc) s

/-! ### The grammar patterns of `autocorrect.ts` (`GRAMMAR_PATTERNS`), one
scanner per regex, applied in source order.  Each scanner reproduces
JavaScript `String.replace` with a global regex: leftmost match, greedy
(or backtracking) quantifiers as noted, continue after the match end. -/

def isVowel (c : Char) : Bool :=
  c = 'a' || c = 'e' || c = 'i' || c = 'o' || c = 'u' ||
  c = 'A' || c = 'E' || c = 'I' || c = 'O' || c = 'U'

/-- Pattern 1: `/\ba\s+([aeiouAEIOU])/g → 'an $1'`. -/
def aToAnGo : Nat → Bool → Str → Str
  | 0, _, s => s
  | _ + 1, _, [] => []
  | fuel + 1, prevW, c :: cs =>
    if c = 'a' ∧ prevW = false then
      let ws := cs.takeWhile isWsC
      match cs.dropWhile isWsC with
      | v :: r3 =>
        if ws ≠ [] ∧ isVowel v then
          'a' :: 'n' :: ' ' :: v :: aToAnGo fuel (isWordC v) r3
        else 'a' :: aToAnGo fuel true cs
      | [] => 'a' :: aToAnGo fuel true cs
    else c :: aToAnGo fuel (isWordC c) cs

def aToAn (s : Str) : Str := aToAnGo s.length false s

/-- Pattern 2: `/\ban\s+([^aeiouAEIOU])/g → 'a $1'`.  The greedy `\s+`
backtracks by one character when the character after the whitespace run is a
vowel (or the run ends the string), so the capture can itself be the last
whitespace character of the run. -/
def anToAGo : Nat → Bool → Str → Str
  | 0, _, s => s
  | _ + 1, _, [] => []
  | fuel + 1, prevW, c :: cs =>
    if c = 'a' ∧ prevW = false ∧ cs.head? = some 'n' then
      let rest := cs.tail
      let ws := rest.takeWhile isWsC
      if ws = [] then 'a' :: anToAGo fuel true cs
      else
        match rest.dropWhile isWsC with
        | v :: r3 =>
          if isVowel v = false then 'a' :: ' ' :: v :: anToAGo fuel (isWordC v) r3
          else if 2 ≤ ws.length then
            match ws.getLast? with
            | some wlast => 'a' :: ' ' :: wlast :: anToAGo fuel false (v :: r3)
            | none => 'a' :: anToAGo fuel true cs
          else 'a' :: anToAGo fuel true cs
        | [] =>
          if 2 ≤ ws.length then
            match ws.getLast? with
            | some wlast => ['a', ' ', wlast]
            | none => 'a' :: anToAGo fuel true cs
          else 'a' :: anToAGo fuel true cs
    else c :: anToAGo fuel (isWordC c) cs

def anToA (s : Str) : Str := anToAGo s.length false s

/-- Pattern 3: `/\bi\s+/g → 'I '`. -/
def iStartGo : Nat → Bool → Str → Str
  | 0, _, s => s
  | _ + 1, _, [] => []
  | fuel + 1, prevW, c :: cs =>
    if c = 'i' ∧ prevW = false then
      if cs.takeWhile isWsC = [] then 'i' :: iStartGo fuel true cs
      else 'I' :: ' ' :: iStartGo fuel false (cs.dropWhile isWsC)
    else c :: iStartGo fuel (isWordC c) cs

def iStart (s : Str) : Str := iStartGo s.length false s

/-- Pattern 4: `/\s+i\s+/g → ' I '`. -/
def iMidGo : Nat → Str → Str
  | 0, s => s
  | _ + 1, [] => []
  | fuel + 1, c :: cs =>
    if isWsC c then
      match (c :: cs).dropWhile isWsC with
      | 'i' :: r3 =>
        if r3.takeWhile isWsC = [] then
          (c :: cs).takeWhile isWsC ++ 'i' :: iMidGo fuel r3
        else ' ' :: 'I' :: ' ' :: iMidGo fuel (r3.dropWhile isWsC)
      | _ => (c :: cs).takeWhile isWsC ++ iMidGo fuel ((c :: cs).dropWhile isWsC)
    else c :: iMidGo fuel cs

def iMid (s : Str) : Str := iMidGo s.length s

/-- Pattern 5: `/\s+i$/g → ' I'`. -/
def iEndGo : Nat → Str → Str
  | 0, s => s
  | _ + 1, [] => []
  | fuel + 1, c :: cs =>
    if isWsC c then
      match (c :: cs).dropWhile isWsC with
      | ['i'] => [' ', 'I']
      | _ => (c :: cs).takeWhile isWsC ++ iEndGo fuel ((c :: cs).dropWhile isWsC)
    else c :: iEndGo fuel cs

def iEnd (s : Str) : Str := iEndGo s.length s

/-- Pattern 6: `/\s{2,}/g → ' '`. -/
def collapseRunsGo : Nat → Str → Str
  | 0, s => s
  | _ + 1, [] => []
  | fuel + 1, c :: cs =>
    if isWsC c then
      if 2 ≤ ((c :: cs).takeWhile isWsC).length then
        ' ' :: collapseRunsGo fuel ((c :: cs).dropWhile isWsC)
      else c :: collapseRunsGo fuel cs
    else c :: collapseRunsGo fuel cs

def collapseRuns (s : Str) : Str := collapseRunsGo s.length s

/-- Patterns 7-10: `/\s+X/g → X` for `X` among `.`, `,`, `?`, `!`. -/
def wsPunctGo (p : Char) : Nat → Str → Str
  | 0, s => s
  | _ + 1, [] => []
  | fuel + 1, c :: cs =>
    if isWsC c then
      match (c :: cs).dropWhile isWsC with
      | x :: r3 =>
        if x = p then p :: wsPunctGo p fuel r3
        else (c :: cs).takeWhile isWsC ++ wsPunctGo p fuel (x :: r3)
      | [] => (c :: cs).takeWhile isWsC
    else c :: wsPunctGo p fuel cs

def wsPunct (p : Char) (s : Str) : Str := wsPunctGo p s.length s

def isLowerAlpha (c : Char) : Bool := 'a' ≤ c && c ≤ 'z'

/-- The sentence-capitalization pass `/(^|\. )([a-z])/g`, scanning part:
matches a literal `". "` followed by a lowercase letter. -/
def capScanGo : Nat → Str → Str
  | 0, s => s
  | _ + 1, [] => []
  | fuel + 1, c :: cs =>
    if c = '.' ∧ cs.head? = some ' ' ∧ cs.tail ≠ [] then
      match cs.tail with
      | d :: rest =>
        if isLowerAlpha d then '.' :: ' ' :: upperC d :: capScanGo fuel rest
        else '.' :: capScanGo fuel cs
      | [] => c :: capScanGo fuel cs
    else c :: capScanGo fuel cs

/-- The sentence-capitalization pass `/(^|\. )([a-z])/g`: the `^` alternative
uppercases a lowercase first letter, then the scan handles `". x"`. -/
def capSent (s : Str) : Str :=
  match s with
  | c :: rest =>
    if isLowerAlpha c then upperC c :: capScanGo rest.length rest
    else capScanGo s.length s
  | [] => []

/-- `applyGrammarPatterns` from `autocorrect.ts`: the ten regex rewrites in
source order, then the sentence-capitalization replace. -/
def applyGrammarPatterns (s : Str) : Str :=
  capSent (wsPunct '!' (wsPunct '?' (wsPunct ',' (wsPunct '.'
    (collapseRuns (iEnd (iMid (iStart (anToA (aToAn s))))))))))

/-! ### `cleanupWhitespace` from `autocorrect.ts`. -/

/-- `.replace(/\s+/g, ' ')`: every whitespace run becomes a single space. -/
def collapseWsGo : Nat → Str → Str
  | 0, s => s
  | _ + 1, [] => []
  | fuel + 1, c :: cs =>
    if isWsC c then ' ' :: collapseWsGo fuel (cs.dropWhile isWsC)
    else c :: collapseWsGo fuel cs

def collapseWs (s : Str) : Str := collapseWsGo s.length s

/-- `.replace(/\s*\n\s*/g, '\n')`: a whitespace run containing a newline
collapses to a single newline (runs without a newline are untouched). -/
def replaceNlRunsGo : Nat → Str → Str
  | 0, s => s
  | _ + 1, [] => []
  | fuel + 1, c :: cs =>
    if isWsC c then
      (if ((c :: cs).takeWhile isWsC).contains '\n' then ['\n']
       else (c :: cs).takeWhile isWsC) ++ replaceNlRunsGo fuel ((c :: cs).dropWhile isWsC)
    else c :: replaceNlRunsGo fuel cs

def replaceNlRuns (s : Str) : Str := replaceNlRunsGo s.length s

/-- `.replace(/^\s+|\s+$/gm, '')`: with the multiline flag, `^\s+` removes a
whitespace run at a line start (including any newlines inside it), and
`\s+$` removes a run that ends the string or reaches up to the last newline
it contains (the newline itself is kept, and the run remainder after it is
then removed by the following `^\s+` match). -/
def trimLinesGo : Nat → Bool → Str → Str
  | 0, _, s => s
  | _ + 1, _, [] => []
  | fuel + 1, lineStart, c :: cs =>
    if isWsC c then
      if lineStart then trimLinesGo fuel false ((c :: cs).dropWhile isWsC)
      else if (c :: cs).dropWhile isWsC = [] then []
      else if ((c :: cs).takeWhile isWsC).contains '\n' then
        '\n' :: trimLinesGo fuel false ((c :: cs).dropWhile isWsC)
      else (c :: cs).takeWhile isWsC ++ trimLinesGo fuel false ((c :: cs).dropWhile isWsC)
    else c :: trimLinesGo fuel false cs

def trimLinesGm (s : Str) : Str := trimLinesGo s.length true s

/-- `cleanupWhitespace` from `autocorrect.ts`: trim, collapse whitespace runs,
normalize newline-containing runs, trim every line. -/
def cleanupWhitespace (s : Str) : Str :=
  trimLinesGm (replaceNlRuns (collapseWs (trimStr s)))

/-- `applyLocalCorrections` from `autocorrect.ts`: typo pass, grammar-pattern
pass, whitespace cleanup. -/
def applyLocalCorrections (s : Str) : Str :=
  cleanupWhitespace (applyGrammarPatterns (fixTypos s))

/-! ### The prompt analyzer (`analyzePromptComponents` and its detectors). -/

/-- Does the second list start with the first one (literal match)? -/
def startsList : Str → Str → Bool
  | [], _ => true
  | _ :: _, [] => false
  | a :: w, b :: t => a = b && startsList w t

/-- Substring occurrence test, modelling `String.includes` and the
`.test` of a regex that is an alternation of literals. -/
def containsSub (needle : Str) : Str → Bool
  | [] => needle.isEmpty
  | c :: t => startsList needle (c :: t) || containsSub needle t

def pats (l : List String) : List Str := l.map String.data

/-- First-match-wins scan over an ordered pattern table; each pattern is an
alternation of literal strings tested by substring against the (already
lower-cased) text. -/
def firstMatchTbl (tbl : List (List Str × Str)) (lower : Str) : Option Str :=
  match tbl with
  | [] => none
  | (alts, res) :: rest =>
    if alts.any (fun a => containsSub a lower) then some res
    else firstMatchTbl rest lower

def backtick3 : Str := [Char.ofNat 96, Char.ofNat 96, Char.ofNat 96]

/-- The `taskKeywords` vocabulary of `analyzePromptComponents`. -/
def taskKeywords : List String :=
  ["write", "create", "build", "develop", "make", "generate", "design",
   "implement", "code", "debug", "fix", "help", "explain", "show",
   "find", "search", "calculate", "compute", "analyze", "review"]

/-- `rolePatterns` of `detectRole`, in source order. -/
def rolePatternTbl : List (List Str × Str) :=
  [(pats ["website", "web", "html", "css", "frontend", "webpage"], "You are an experienced full-stack web developer".data),
   (pats ["function", "javascript", "typescript", "js", "ts"], "A skilled JavaScript/TypeScript developer".data),
   (pats ["react", "vue", "angular", "next.js", "nextjs"], "A frontend React developer".data),
   (pats ["css", "style", "design", "tailwindcss"], "A UI/UX designer and CSS expert".data),
   (pats ["node", "express", "koa", "fastify"], "A backend Node.js developer".data),
   (pats ["java", "spring", "jvm", "kotlin"], "An experienced Java backend engineer".data),
   (pats ["c#", "dotnet", "asp.net", ".net"], "A C#/.NET developer".data),
   (pats ["php", "laravel", "symfony"], "A PHP backend developer".data),
   (pats ["ruby", "rails"], "A Ruby on Rails developer".data),
   (pats ["go", "golang"], "A Go backend developer".data),
   (pats ["docker", "kubernetes", "k8s", "container"], "A DevOps and containerization expert".data),
   (pats ["aws", "azure", "gcp", "cloud"], "A cloud computing engineer".data),
   (pats ["machine learning", "ml", "ai", "neural", "tensorflow", "pytorch"], "A machine learning engineer".data),
   (pats ["data science", "pandas", "numpy", "matplotlib", "scikit", "analysis"], "A data scientist".data),
   (pats ["nlp", "language model", "text processing"], "An NLP engineer".data),
   (pats ["vision", "image", "opencv"], "A computer vision engineer".data),
   (pats ["statistics", "probability", "regression", "analytics"], "A statistics and data analytics expert".data),
   (pats ["c++", "cpp", "c program", "arduino", "stm32", "embedded"], "An embedded systems developer".data),
   (pats ["rust", "systems programming", "memory safety"], "A Rust systems programmer".data),
   (pats ["os", "kernel", "driver", "low-level"], "An operating systems engineer".data),
   (pats ["android", "kotlin", "java android", "apk"], "An Android app developer".data),
   (pats ["ios", "swift", "objective-c"], "An iOS app developer".data),
   (pats ["flutter", "dart"], "A Flutter mobile developer".data),
   (pats ["react native"], "A React Native mobile developer".data),
   (pats ["cybersecurity", "pentest", "xss", "sql injection", "exploit"], "A cybersecurity specialist".data),
   (pats ["auth", "authentication", "oauth", "jwt", "encryption", "hash"], "A security engineer".data),
   (pats ["sql", "database", "query"], "A database expert".data),
   (pats ["python", "py"], "An experienced Python developer".data),
   (pats ["devops", "ci/cd", "pipeline", "automation"], "A DevOps engineer".data),
   (pats ["shell", "bash", "linux", "unix", "command line"], "A Linux and shell scripting expert".data),
   (pats ["regex", "pattern matching"], "A regular expressions expert".data),
   (pats ["excel", "spreadsheet", "vba"], "An Excel/VBA automation specialist".data),
   (pats ["game", "unity", "unreal", "godot"], "A game developer".data),
   (pats ["debug", "error", "fix", "problem"], "A debugging specialist".data),
   (pats ["api", "rest", "endpoint"], "A backend API developer".data),
   (pats ["test", "testing", "unit test"], "A software testing expert".data)]

def detectRole (lower : Str) : Option Str := firstMatchTbl rolePatternTbl lower

/-- `formatPatterns` of `detectOutputFormat`, in source order. -/
def formatPatternTbl : List (List Str × Str) :=
  [(pats ["website", "web", "html"], "Provide the complete code in Markdown code blocks, with separate blocks for HTML, CSS, and JavaScript".data),
   (pats ["api", "rest", "endpoint"], "Provide code examples with proper API structure and documentation".data),
   (pats ["node", "express"], "Provide Node.js code in markdown code blocks with proper module structure".data),
   (pats ["java", "spring"], "Provide Java code with proper class structure and annotations".data),
   (pats ["python", "django", "flask"], "Provide Python code following PEP 8 formatting in code blocks".data),
   (pats ["android", "kotlin"], "Provide Android code with proper activity/fragment structure".data),
   (pats ["ios", "swift"], "Provide Swift code with proper view controller structure".data),
   (pats ["flutter", "dart"], "Provide Flutter code with proper widget structure".data),
   (pats ["machine learning", "ml", "data science"], "Provide code with data analysis steps and visualizations".data),
   (pats ["sql", "database"], "Provide SQL queries with proper formatting and comments".data),
   (pats ["docker", "kubernetes"], "Provide configuration files with proper YAML/Dockerfile structure".data),
   (pats ["shell", "bash"], "Provide shell scripts with proper shebang and comments".data),
   (pats ["json"], "Return the response in JSON format".data),
   (pats ["xml"], "Return the response in XML format".data),
   (pats ["csv"], "Return the response in CSV format".data),
   (pats ["yaml", "yml"], "Return the response in YAML format".data),
   (pats ["markdown", "md"], "Respond in Markdown format with proper headers and formatting".data),
   (pats ["code block", "snippet"], "Return the solution in a fenced code block".data),
   (pats ["code block", "codeblock"] ++ [backtick3], "Provide the solution in a markdown code block".data),
   (pats ["step by step", "steps"], "Provide a step-by-step explanation".data),
   (pats ["example", "examples"], "Include practical examples".data),
   (pats ["list", "bullet"], "Present as a numbered or bulleted list".data)]

def detectOutputFormat (lower : Str) : Option Str := firstMatchTbl formatPatternTbl lower

/-- `constraintPatterns` of `detectConstraints`, in source order. -/
def constraintPatternTbl : List (List Str × Str) :=
  [(pats ["website", "web", "html"], "Use HTML, CSS, and JavaScript only (no external frameworks unless specified). Ensure the site is mobile-friendly. Keep the design clean and professional".data),
   (pats ["node", "express"], "Use Node.js and Express.js best practices. Include proper error handling and async/await patterns".data),
   (pats ["java", "spring"], "Follow Java best practices and Spring Boot conventions. Use proper dependency injection".data),
   (pats ["c#", "dotnet"], "Follow C#/.NET coding standards and use appropriate design patterns".data),
   (pats ["python", "django", "flask"], "Use Pythonic code following PEP 8 standards. Include proper error handling".data),
   (pats ["php", "laravel"], "Follow PHP PSR standards and Laravel best practices".data),
   (pats ["ruby", "rails"], "Follow Ruby conventions and Rails best practices".data),
   (pats ["go", "golang"], "Use Go best practices with proper error handling and concurrent patterns".data),
   (pats ["android", "kotlin"], "Follow Android development best practices and Material Design guidelines".data),
   (pats ["ios", "swift"], "Follow iOS Human Interface Guidelines and Swift best practices".data),
   (pats ["flutter", "dart"], "Use Flutter best practices and follow Dart style guidelines".data),
   (pats ["react native"], "Follow React Native best practices and cross-platform compatibility".data),
   (pats ["docker", "kubernetes"], "Follow containerization best practices and security guidelines".data),
   (pats ["aws", "azure", "gcp", "cloud"], "Follow cloud best practices for scalability, security, and cost optimization".data),
   (pats ["devops", "ci/cd"], "Implement proper CI/CD practices with automated testing and deployment".data),
   (pats ["machine learning", "ml", "ai"], "Use appropriate ML frameworks and follow data science best practices".data),
   (pats ["data science", "pandas", "numpy"], "Use proper data analysis techniques and statistical methods".data),
   (pats ["security", "auth", "encryption"], "Follow security best practices and implement proper authentication/authorization".data),
   (pats ["cybersecurity", "pentest"], "Follow ethical hacking guidelines and security testing protocols".data),
   (pats ["vanilla", "plain", "native"], "Use only vanilla language features, no frameworks or libraries".data),
   (pats ["standard library", "stdlib"], "Use only the standard library, no third-party dependencies".data),
   (pats ["one file", "single file"], "Put everything into a single file".data),
   (pats ["no comments", "without comments"], "Do not include comments in the code".data),
   (pats ["with comments", "explain code"], "Add inline comments explaining each step".data),
   (pats ["beginner", "basic", "simple"], "Keep it simple and beginner-friendly".data),
   (pats ["advanced", "complex", "optimized"], "Provide an advanced, optimized implementation".data),
   (pats ["readable", "clean", "maintainable"], "Ensure the code is clean, readable, and maintainable".data),
   (pats ["efficient", "performance", "fast", "optimize"], "Focus on performance and efficiency".data),
   (pats ["memory", "lightweight", "low resources"], "Minimize memory and resource usage".data),
   (pats ["scalable", "large scale", "big data"], "Design for scalability and handling large datasets".data),
   (pats ["unit test", "test case", "testing"], "Include unit tests for the solution".data),
   (pats ["validate", "check input", "error handling"], "Add error handling and input validation".data),
   (pats ["secure", "encryption", "hash", "jwt", "auth", "authentication"], "Ensure the solution is secure with proper encryption/authentication".data),
   (pats ["sanitize", "xss", "sql injection"], "Prevent injection attacks and sanitize inputs".data),
   (pats ["browser", "frontend", "client side"], "Run in the browser, client-side only".data),
   (pats ["server", "backend", "cli", "command line"], "Target server-side / command line usage".data),
   (pats ["cross platform", "portable"], "Ensure it works across platforms (Windows, macOS, Linux)".data),
   (pats ["open source", "free"], "Use only open-source or free tools".data),
   (pats ["commercial", "enterprise"], "Make it suitable for production/enterprise use".data),
   (pats ["no library", "no libraries", "no external", "no dependencies"], "Use only built-in features, no external libraries".data),
   (pats ["modern", "latest", "es6", "es2020"], "Use modern JavaScript/TypeScript features".data)]

def detectConstraints (lower : Str) : Option Str := firstMatchTbl constraintPatternTbl lower

/-- `tonePatterns` of `detectTone`, in source order. -/
def tonePatternTbl : List (List Str × Str) :=
  [(pats ["step by step", "tutorial", "guide"], "Explain step by step, like a tutorial".data),
   (pats ["summary", "overview", "outline"], "Give a high-level summary, not deep details".data),
   (pats ["beginner", "easy", "simple"], "Beginner-friendly, with plain language".data),
   (pats ["advanced", "expert", "deep dive"], "Advanced, technical, and in-depth".data),
   (pats ["casual", "friendly", "fun"], "Use a casual, approachable style".data),
   (pats ["formal", "academic", "research"], "Formal and academic tone".data),
   (pats ["story", "analogy", "example"], "Explain with analogies or examples".data),
   (pats ["instruction", "steps", "how to"], "Give clear instructions in list form".data),
   (pats ["code only", "just code", "no explanation"], "Provide only the code, no explanations".data),
   (pats ["commented", "explain code"], "Add comments and inline explanations inside the code".data),
   (pats ["production", "enterprise", "scalable"], "Professional, robust, production-ready style".data),
   (pats ["prototype", "demo", "quick test"], "Fast, lightweight, prototype style".data),
   (pats ["detailed", "detail", "thorough"], "Provide detailed explanations".data),
   (pats ["quick", "brief", "short"], "Keep it concise and to the point".data),
   (pats ["explain", "explanation", "understand"], "Include clear explanations".data),
   (pats ["professional"], "Professional, production-ready approach".data),
   (pats ["website", "web", "for me"], "Clear, concise, and beginner-friendly".data)]

def detectTone (lower : Str) : Option Str := firstMatchTbl tonePatternTbl lower

/-- Does a character of the string `w` occur as a match of `/create.*website/i`
(with `.` not crossing a newline)?  Helper for `extractMainTask`. -/
def findInLine (w : Str) : Str → Bool
  | [] => false
  | c :: t => startsList w (c :: t) || (c ≠ '\n' && findInLine w t)

/-- `/create.*website/i.test`, on the already lower-cased text. -/
def createWebsiteTest : Str → Bool
  | [] => false
  | c :: t =>
    (startsList "create".data (c :: t) && findInLine "website".data ((c :: t).drop 6)) ||
      createWebsiteTest t

def endsWithDot (s : Str) : Bool :=
  match s.getLast? with
  | some c => c = '.'
  | none => false

/-- `extractMainTask` from `autocorrect.ts`. -/
def extractMainTask (text : Str) : Str :=
  let cleaned := trimStr text
  if cleaned.isEmpty then []
  else if createWebsiteTest (toLowerL cleaned) then
    "Create a modern, responsive website for me".data
  else
    (match cleaned with
     | c :: rest => upperC c :: rest
     | [] => []) ++ (if endsWithDot cleaned then [] else ['.'])

/-- The partial analysis record: `undefined` fields are `none` (the analyzer
never produces empty-string fields directly, but callers may). -/
structure PromptParts where
  role : Option Str := none
  task : Option Str := none
  constraints : Option Str := none
  examples : Option Str := none
  outputFormat : Option Str := none
  tone : Option Str := none
  inferredMissingDetails : Option (List Str) := none
deriving DecidableEq

/-- `analyzePromptComponents` from `autocorrect.ts`: gate on the task-verb
vocabulary, then run the four detectors; otherwise the empty record. -/
def analyzePromptComponents (text : Str) : PromptParts :=
  let lower := toLowerL text
  if taskKeywords.any (fun k => containsSub k.data lower) then
    { task := some (extractMainTask text),
      role := detectRole lower,
      outputFormat := detectOutputFormat lower,
      constraints := detectConstraints lower,
      tone := detectTone lower }
  else {}

/-! ### The defaulting engine (`applyDefaultsForMissingComponents`). -/

structure StructuredPrompt where
  role : Option Str
  task : Str
  constraints : Option Str
  examples : Option Str
  outputFormat : Option Str
  tone : Option Str
  inferredMissingDetails : List Str
deriving DecidableEq

/-- JavaScript truthiness of an optional string field. -/
def truthyS : Option Str → Bool
  | none => false
  | some s => !s.isEmpty

/-- JavaScript `a || b` for an optional string field with a default. -/
def jsOrS (o : Option Str) (d : Str) : Str :=
  match o with
  | some s => if s.isEmpty then d else s
  | none => d

/-- The secondary inference table of `inferRoleFromTask`, in source order. -/
def roleInferTbl : List (List Str × Str) :=
  [(pats ["website", "web", "html", "css", "frontend", "webpage"], "An experienced full-stack web developer".data),
   (pats ["code", "program", "script", "function", "class", "debug", "implement"], "A skilled software developer".data),
   (pats ["data", "analyze", "chart", "graph", "statistics", "csv", "excel"], "A data analyst".data),
   (pats ["design", "ui", "ux", "layout", "color", "style"], "A UI/UX designer".data),
   (pats ["write", "document", "explain", "describe", "essay", "article"], "A technical writer".data)]

def inferRoleFromTask (task : Str) : Option Str :=
  firstMatchTbl roleInferTbl (toLowerL task)

/-- The secondary inference table of `inferOutputFormatFromTask`, in source order. -/
def formatInferTbl : List (List Str × Str) :=
  [(pats ["website", "web", "html"], "Complete Next.js code in separate code blocks".data),
   (pats ["code", "program", "script", "function"], "Clean, well-commented code in a markdown code block".data),
   (pats ["step", "guide", "tutorial", "how to"], "Step-by-step numbered list with explanations".data),
   (pats ["list", "options", "choices"], "Bulleted list format".data),
   (pats ["explain", "describe", "what is"], "Clear explanation with examples".data)]

def inferOutputFormatFromTask (task : Str) : Option Str :=
  firstMatchTbl formatInferTbl (toLowerL task)

def taskDefault : Str := "Help me with my request".data

def toneDefault : Str := "Professional and helpful".data

def roleMsg (r : Str) : Str := "Inferred role: ".data ++ r

def formatMsg (f : Str) : Str := "Inferred output format: ".data ++ f

def toneMsg : Str := "Applied default tone: Professional and helpful".data

/-- The role step of `applyDefaultsForMissingComponents`: if the task is set
and no role was detected, infer one from the task and record the inference. -/
def roleDefaultPair (role : Option Str) (task : Str) : Option Str × List Str :=
  if !task.isEmpty && !truthyS role then
    match inferRoleFromTask task with
    | some r => (some r, if truthyS (some r) then [roleMsg r] else [])
    | none => (none, [])
  else (role, [])

/-- The output-format step of `applyDefaultsForMissingComponents`. -/
def formatDefaultPair (outputFormat : Option Str) (task : Str) :
    Option Str × List Str :=
  if !task.isEmpty && !truthyS outputFormat then
    match inferOutputFormatFromTask task with
    | some f => (some f, if truthyS (some f) then [formatMsg f] else [])
    | none => (none, [])
  else (outputFormat, [])

/-- The tone step of `applyDefaultsForMissingComponents`. -/
def toneDefaultPair (tone : Option Str) : Option Str × List Str :=
  if !truthyS tone then (some toneDefault, [toneMsg]) else (tone, [])

/-- `applyDefaultsForMissingComponents` from `autocorrect.ts`: fill `task`
with the generic helper phrase, then (in this order) infer a missing role,
infer a missing output format, and default a missing tone, recording each
applied inference in `inferredMissingDetails`. -/
def applyDefaultsForMissingComponents (a : PromptParts) : StructuredPrompt :=
  let task := jsOrS a.task taskDefault
  { task := task,
    role := (roleDefaultPair a.role task).1,
    constraints := a.constraints,
    examples := a.examples,
    outputFormat := (formatDefaultPair a.outputFormat task).1,
    tone := (toneDefaultPair a.tone).1,
    inferredMissingDetails :=
      a.inferredMissingDetails.getD [] ++ (roleDefaultPair a.role task).2 ++
        (formatDefaultPair a.outputFormat task).2 ++ (toneDefaultPair a.tone).2 }

/-! ### The remote enrichment client (`llmClient.ts`): configuration check,
response cleaning, and the typed failure taxonomy. -/

def apos : Char := Char.ofNat 39

def heres : Str := "Here".data ++ [apos] ++ "s".data

/-- The `introPatterns` of `extractEnhancedPrompt`, in source order; each is a
literal phrase (matched case-insensitively) followed by `\s*`. -/
def introPhrases : List Str :=
  [heres ++ " the enhanced prompt:".data,
   "Enhanced prompt:".data,
   heres ++ " a better version:".data,
   heres ++ " the improved prompt:".data,
   "Improved prompt:".data,
   heres ++ " the structured prompt:".data,
   "Structured prompt:".data,
   "ENHANCED PROMPT:".data]

/-- Remainder of the string after the leftmost case-insensitive occurrence of
`pat` (that is, `s.substring(match.index + pat.length)`), if any. -/
def stripAfterCI (pat : Str) : Str → Option Str
  | [] =>
    match splitCI pat [] with
    | some (_, r) => some r
    | none => none
  | c :: t =>
    match splitCI pat (c :: t) with
    | some (_, rest) => some rest
    | none => stripAfterCI pat t

/-- The intro-phrase loop of `extractEnhancedPrompt`: try each pattern in
order, and at the first one that matches anywhere, keep only the text after
the matched phrase (and its trailing whitespace), trimmed; then stop. -/
def stripIntroPhrases : List Str → Str → Str
  | [], s => s
  | p :: rest, s =>
    match stripAfterCI p s with
    | some after => trimStr (after.dropWhile isWsC)
    | none => stripIntroPhrases rest s

/-- The alternatives of the `simpleExplanations` pattern
`/^(Okay|Sure|I've analyzed|I understand|Let me enhance).*?[.!]\s+/i`. -/
def explOpeners : List Str :=
  ["Okay".data, "Sure".data, "I".data ++ [apos] ++ "ve analyzed".data,
   "I understand".data, "Let me enhance".data]

/-- The `.*?[.!]\s+` tail of the simple-explanation pattern: lazily scan
(within the current line) for the first `.` or `!` that is followed by
whitespace, and consume that whitespace run greedily. -/
def lazyStop : Str → Option Str
  | [] => none
  | c :: t =>
    if (c = '.' || c = '!') &&
       (match t with
        | d :: _ => isWsC d
        | [] => false) then some (t.dropWhile isWsC)
    else if c = '\n' then none
    else lazyStop t

def tryOpeners : List Str → Str → Option Str
  | [], _ => none
  | p :: rest, s =>
    match splitCI p s with
    | some (_, after) =>
      match lazyStop after with
      | some r => some r
      | none => tryOpeners rest s
    | none => tryOpeners rest s

/-- The simple-explanation removal step of `extractEnhancedPrompt`: strip a
single leading conversational opener sentence, when present. -/
def stripExplan (s : Str) : Str :=
  match tryOpeners explOpeners s with
  | some r => r
  | none => s

def isQuoteC (c : Char) : Bool := c = '"' || c = apos || c = Char.ofNat 96

/-- `.replace(/^["'`]+|["'`]+$/g, '')`: remove a leading and a trailing run of
quote characters. -/
def stripQuotes (s : Str) : Str :=
  ((s.dropWhile isQuoteC).reverse.dropWhile isQuoteC).reverse

/-- The cleaning steps of `extractEnhancedPrompt` (before the length-floor
safeguard): trim, strip the first matching intro phrase, strip a leading
explanatory sentence, strip wrapping quotes, trim. -/
def cleanCandidate (r : Str) : Str :=
  trimStr (stripQuotes (stripExplan (stripIntroPhrases introPhrases (trimStr r))))

/-- `extractEnhancedPrompt` from `llmClient.ts`: if cleaning reduced the text
below 20 characters, fall back to the original trimmed reply. -/
def extractEnhancedPrompt (r : Str) : Str :=
  if (cleanCandidate r).length < 20 then trimStr r else cleanCandidate r

/-- The configuration record of `config.ts` (`ClarityConfig`). -/
structure ClarityConfig where
  geminiApiKey : Str

/-- `validateApiKey` from `config.ts`: the key must be non-blank after trim. -/
def validateApiKey (config : ClarityConfig) : Bool :=
  !(trimStr config.geminiApiKey).isEmpty

structure GeminiPart where
  text : Str

structure GeminiContent where
  parts : List GeminiPart

structure GeminiCandidate where
  content : Option GeminiContent

/-- One network round-trip outcome, supplied by the environment. -/
inductive FetchOutcome where
  | httpError (status : Nat) (body : Str)
  | success (candidates : List GeminiCandidate)

/-- The typed failure taxonomy of the remote enrichment client, one
constructor per `throw` site of `callExternalLLM`. -/
inductive RemoteEnrichmentError where
  | configuration
  | transport (status : Nat) (body : Str)
  | noCandidates
  | invalidStructure
  | emptyResponse
deriving DecidableEq

/-- `callExternalLLM` from `llmClient.ts`, with the single `fetch` outcome
passed in explicitly; the second component counts the HTTP requests
actually issued. -/
def callExternalLLM (config : ClarityConfig) (net : FetchOutcome) :
    Except RemoteEnrichmentError Str × Nat :=
  if validateApiKey config = false then (Except.error .configuration, 0)
  else
    match net with
    | .httpError status body => (Except.error (.transport status body), 1)
    | .success candidates =>
      match candidates with
      | [] => (Except.error .noCandidates, 1)
      | candidate :: _ =>
        match candidate.content with
        | none => (Except.error .invalidStructure, 1)
        | some content =>
          match content.parts with
          | [] => (Except.error .invalidStructure, 1)
          | p :: _ =>
            let improvedPrompt := trimStr p.text
            if improvedPrompt.isEmpty then (Except.error .emptyResponse, 1)
            else
              let cleanedPrompt := extractEnhancedPrompt improvedPrompt
              if cleanedPrompt.length < 20 ∧ 50 < improvedPrompt.length then
                (Except.ok improvedPrompt, 1)
              else (Except.ok cleanedPrompt, 1)

/-- `improvePrompt` from `autocorrect.ts`: local corrections first, then the
optional remote enhancement whose behaviour is the `llm` argument; any
remote failure falls back to the locally corrected text. -/
def improvePrompt (prompt : Str) (useExternalLLM : Bool)
    (llm : Str → Except RemoteEnrichmentError Str) : Str :=
  let improvedPrompt := applyLocalCorrections prompt
  if useExternalLLM then
    match llm improvedPrompt with
    | .ok g =>
      if !g.isEmpty && !(trimStr g).isEmpty then trimStr g
      else trimStr improvedPrompt
    | .error _ => trimStr improvedPrompt
  else trimStr improvedPrompt

/-! ### Whitespace invariants of `cleanupWhitespace`. -/

def headNonWs : Str → Bool
  | [] => true
  | c :: _ => !isWsC c

def lastNonWs : Str → Bool
  | [] => true
  | [c] => !isWsC c
  | _ :: c :: t => lastNonWs (c :: t)

/-- No two adjacent whitespace characters. -/
def noWsPair : Str → Bool
  | a :: b :: t => !(isWsC a && isWsC b) && noWsPair (b :: t)
  | _ => true

/-- Every whitespace character of the string is a plain space. -/
def allWsSpace (s : Str) : Bool := s.all (fun c => !isWsC c || c = ' ')

def hasNonWs (s : Str) : Bool := s.any (fun c => !isWsC c)

theorem headNonWs_dropWhile (s : Str) : headNonWs (s.dropWhile isWsC) = true := by
  induction s with
  | nil => rfl
  | cons c t ih =>
    by_cases h : isWsC c
    · rw [dropWhile_cons_pos h]; exact ih
    · rw [dropWhile_cons_neg (by simp [h])]
      simp [headNonWs, h]

theorem headNonWs_append_single (l : Str) (c : Char) (h : l ≠ []) :
    headNonWs (l ++ [c]) = headNonWs l := by
  cases l with
  | nil => exact absurd rfl h
  | cons a t => simp [headNonWs]

theorem lastNonWs_eq_reverse (s : Str) : lastNonWs s = headNonWs s.reverse := by
  induction s with
  | nil => rfl
  | cons c t ih =>
    cases t with
    | nil => rfl
    | cons d u =>
      rw [show lastNonWs (c :: d :: u) = lastNonWs (d :: u) from rfl, ih]
      rw [show (c :: d :: u).reverse = (d :: u).reverse ++ [c] by simp]
      rw [headNonWs_append_single _ _ (by simp)]

theorem lastNonWs_cons {c : Char} {t : Str} (h : t ≠ []) :
    lastNonWs (c :: t) = lastNonWs t := by
  cases t with
  | nil => exact absurd rfl h
  | cons d u => rfl

theorem lastNonWs_dropWhile {l : Str} (h : lastNonWs l = true) :
    lastNonWs (l.dropWhile isWsC) = true := by
  induction l with
  | nil => rfl
  | cons c t ih =>
    by_cases hc : isWsC c
    · rw [dropWhile_cons_pos hc]
      cases t with
      | nil => simp [lastNonWs, hc] at h
      | cons d u => exact ih (by rwa [lastNonWs_cons (by simp)] at h)
    · rwa [dropWhile_cons_neg (by simp [hc])]

theorem dropWhile_ne_nil {l : Str} (h : lastNonWs l = true) (hne : l ≠ []) :
    l.dropWhile isWsC ≠ [] := by
  induction l with
  | nil => exact absurd rfl hne
  | cons c t ih =>
    by_cases hc : isWsC c
    · rw [dropWhile_cons_pos hc]
      cases t with
      | nil => simp [lastNonWs, hc] at h
      | cons d u =>
        exact ih (by rwa [lastNonWs_cons (by simp)] at h) (by simp)
    · rw [dropWhile_cons_neg (by simp [hc])]; simp

theorem lastNonWs_trimEnd (s : Str) : lastNonWs (trimEnd s) = true := by
  rw [lastNonWs_eq_reverse, trimEnd, List.reverse_reverse]
  exact headNonWs_dropWhile _

theorem exists_prefix_dropWhile (p : Char → Bool) (l : Str) :
    ∃ t, t ++ l.dropWhile p = l := by
  induction l with
  | nil => exact ⟨[], rfl⟩
  | cons c t ih =>
    by_cases h : p c
    · obtain ⟨u, hu⟩ := ih
      exact ⟨c :: u, by rw [dropWhile_cons_pos h]; simp [hu]⟩
    · exact ⟨[], by rw [dropWhile_cons_neg (by simp [h])]; rfl⟩

theorem headNonWs_trimEnd {s : Str} (h : headNonWs s = true) :
    headNonWs (trimEnd s) = true := by
  obtain ⟨t, ht⟩ := exists_prefix_dropWhile isWsC s.reverse
  have hs : trimEnd s ++ t.reverse = s := by
    rw [trimEnd, ← List.reverse_append, ht, List.reverse_reverse]
  cases he : trimEnd s with
  | nil => rfl
  | cons c u =>
    rw [he] at hs
    rw [← hs] at h
    simpa [headNonWs] using h

theorem lastNonWs_append {l m : Str} (h : m ≠ []) :
    lastNonWs (l ++ m) = lastNonWs m := by
  induction l with
  | nil => rfl
  | cons c t ih =>
    have : t ++ m ≠ [] := by
      cases m with
      | nil => exact absurd rfl h
      | cons => simp
    rw [List.cons_append, lastNonWs_cons this, ih]

theorem lastNonWs_trimStart {s : Str} (h : lastNonWs s = true) :
    lastNonWs (trimStart s) = true := lastNonWs_dropWhile h

theorem headNonWs_trimStr (s : Str) : headNonWs (trimStr s) = true :=
  headNonWs_trimEnd (headNonWs_dropWhile s)

theorem lastNonWs_trimStr (s : Str) : lastNonWs (trimStr s) = true :=
  lastNonWs_trimEnd _

theorem trimStart_eq_self {s : Str} (h : headNonWs s = true) : trimStart s = s := by
  cases s with
  | nil => rfl
  | cons c t =>
    simp only [headNonWs, Bool.not_eq_true'] at h
    exact dropWhile_cons_neg h

theorem trimEnd_eq_self {s : Str} (h : lastNonWs s = true) : trimEnd s = s := by
  rw [lastNonWs_eq_reverse] at h
  have := trimStart_eq_self h
  rw [trimEnd, show s.reverse.dropWhile isWsC = s.reverse from this, List.reverse_reverse]

theorem trimStr_eq_self {s : Str} (h1 : headNonWs s = true) (h2 : lastNonWs s = true) :
    trimStr s = s := by
  rw [trimStr, trimStart_eq_self h1, trimEnd_eq_self h2]

theorem collapseWsGo_ne_nil {fuel : Nat} {s : Str} (h : 1 ≤ fuel) (hs : s ≠ []) :
    collapseWsGo fuel s ≠ [] := by
  cases fuel with
  | zero => omega
  | succ n =>
    cases s with
    | nil => exact absurd rfl hs
    | cons c t =>
      by_cases hc : isWsC c <;> simp [collapseWsGo, hc]

theorem collapseWsGo_allWsSpace (fuel : Nat) :
    ∀ s : Str, s.length ≤ fuel → allWsSpace (collapseWsGo fuel s) = true := by
  induction fuel with
  | zero =>
    intro s h
    have : s = [] := by
      cases s with
      | nil => rfl
      | cons => simp at h
    simp [this, collapseWsGo, allWsSpace]
  | succ n ih =>
    intro s h
    cases s with
    | nil => simp [collapseWsGo, allWsSpace]
    | cons c t =>
      by_cases hc : isWsC c
      · have hlen : (t.dropWhile isWsC).length ≤ n := by
          have := dropWhile_length_le isWsC t
          simp at h; omega
        have := ih (t.dropWhile isWsC) hlen
        simp [collapseWsGo, hc, allWsSpace] at this ⊢
        exact this
      · have hlen : t.length ≤ n := by simp at h; omega
        have := ih t hlen
        simp [collapseWsGo, hc, allWsSpace] at this ⊢
        exact this

theorem collapseWsGo_head {fuel : Nat} {s : Str} (h : headNonWs s = true) :
    headNonWs (collapseWsGo fuel s) = true := by
  cases fuel with
  | zero => simpa [collapseWsGo] using h
  | succ n =>
    cases s with
    | nil => simp [collapseWsGo, headNonWs]
    | cons c t =>
      simp only [headNonWs, Bool.not_eq_true'] at h
      simp [collapseWsGo, h, headNonWs]

theorem collapseWsGo_noWsPair (fuel : Nat) :
    ∀ s : Str, s.length ≤ fuel → noWsPair (collapseWsGo fuel s) = true := by
  induction fuel with
  | zero =>
    intro s h
    have : s = [] := by
      cases s with
      | nil => rfl
      | cons => simp at h
    simp [this, collapseWsGo, noWsPair]
  | succ n ih =>
    intro s h
    cases s with
    | nil => simp [collapseWsGo, noWsPair]
    | cons c t =>
      by_cases hc : isWsC c
      · have hlen : (t.dropWhile isWsC).length ≤ n := by
          have := dropWhile_length_le isWsC t
          simp at h; omega
        have hpair := ih (t.dropWhile isWsC) hlen
        have hhead : headNonWs (collapseWsGo n (t.dropWhile isWsC)) = true :=
          collapseWsGo_head (headNonWs_dropWhile t)
        simp only [collapseWsGo, hc, if_pos]
        cases hrec : collapseWsGo n (t.dropWhile isWsC) with
        | nil => simp [noWsPair]
        | cons d u =>
          rw [hrec] at hpair hhead
          simp only [headNonWs, Bool.not_eq_true'] at hhead
          simp [noWsPair, hhead, hpair]
      · have hlen : t.length ≤ n := by simp at h; omega
        have hpair := ih t hlen
        simp only [collapseWsGo, hc, if_neg, Bool.false_eq_true, not_false_iff]
        cases hrec : collapseWsGo n t with
        | nil => simp [noWsPair]
        | cons d u =>
          rw [hrec] at hpair
          simp [noWsPair, hpair, hc]

theorem collapseWsGo_last (fuel : Nat) :
    ∀ s : Str, s.length ≤ fuel → lastNonWs s = true →
      lastNonWs (collapseWsGo fuel s) = true := by
  induction fuel with
  | zero =>
    intro s h hl
    have : s = [] := by
      cases s with
      | nil => rfl
      | cons => simp at h
    simp [this, collapseWsGo, lastNonWs]
  | succ n ih =>
    intro s h hl
    cases s with
    | nil => simp [collapseWsGo, lastNonWs]
    | cons c t =>
      by_cases hc : isWsC c
      · have htne : t ≠ [] := by
          intro he
          rw [he] at hl
          simp [lastNonWs, hc] at hl
        have hlt : lastNonWs t = true := by rwa [lastNonWs_cons htne] at hl
        have hdne : t.dropWhile isWsC ≠ [] := dropWhile_ne_nil hlt htne
        have hlen : (t.dropWhile isWsC).length ≤ n := by
          have := dropWhile_length_le isWsC t
          simp at h; omega
        have hrec := ih (t.dropWhile isWsC) hlen (lastNonWs_dropWhile hlt)
        have hne : collapseWsGo n (t.dropWhile isWsC) ≠ [] := by
          have h1 : 1 ≤ n := by
            cases hd : t.dropWhile isWsC with
            | nil => exact absurd hd hdne
            | cons => rw [hd] at hlen; simp at hlen; omega
          exact collapseWsGo_ne_nil h1 hdne
        simp only [collapseWsGo, hc, if_pos]
        rw [lastNonWs_cons hne]
        exact hrec
      · have hlen : t.length ≤ n := by simp at h; omega
        simp only [collapseWsGo, hc, Bool.false_eq_true, if_neg, not_false_iff]
        cases ht : t with
        | nil =>
          rw [ht] at hl
          cases n <;> simpa [collapseWsGo, lastNonWs] using hl
        | cons d u =>
          have htne : t ≠ [] := by rw [ht]; simp
          have hlt : lastNonWs t = true := by rwa [lastNonWs_cons htne] at hl
          have hne : collapseWsGo n t ≠ [] := by
            have h1 : 1 ≤ n := by rw [ht] at hlen; simp at hlen; omega
            exact collapseWsGo_ne_nil h1 htne
          rw [← ht, lastNonWs_cons hne]
          exact ih t hlen hlt

theorem allWsSpace_no_nl {s : Str} (h : allWsSpace s = true) :
    s.contains '\n' = false := by
  simp only [allWsSpace, List.all_eq_true] at h
  by_contra hc
  simp only [Bool.not_eq_false] at hc
  have hm : '\n' ∈ s := List.mem_of_elem_eq_true hc
  have := h '\n' hm
  simp [isWsC] at this

theorem contains_eq_false_of_not_mem {s : Str} {a : Char} (h : a ∉ s) :
    s.contains a = false := by
  have : s.contains a ≠ true := fun hc => h (List.mem_of_elem_eq_true hc)
  simpa using this

theorem not_mem_takeWhile {s : Str} {a : Char} (h : a ∉ s) :
    a ∉ s.takeWhile isWsC :=
  fun hm => h ((List.takeWhile_sublist isWsC).mem hm)

theorem not_mem_dropWhile {s : Str} {a : Char} (h : a ∉ s) :
    a ∉ s.dropWhile isWsC :=
  fun hm => h ((List.dropWhile_sublist isWsC).mem hm)

theorem replaceNlRunsGo_id (fuel : Nat) :
    ∀ s : Str, s.length ≤ fuel → '\n' ∉ s → replaceNlRunsGo fuel s = s := by
  induction fuel with
  | zero => intro s h _; simp [replaceNlRunsGo]
  | succ n ih =>
    intro s h hnl
    cases s with
    | nil => simp [replaceNlRunsGo]
    | cons c t =>
      by_cases hc : isWsC c
      · have hct : ((c :: t).takeWhile isWsC).contains '\n' = false :=
          contains_eq_false_of_not_mem (not_mem_takeWhile hnl)
        have hlen : ((c :: t).dropWhile isWsC).length ≤ n := by
          rw [dropWhile_cons_pos hc]
          have := dropWhile_length_le isWsC t
          simp at h; omega
        have hrec := ih _ hlen (not_mem_dropWhile hnl)
        simp only [replaceNlRunsGo, hc, if_pos, hct, Bool.false_eq_true, if_neg,
          not_false_iff, hrec]
        exact List.takeWhile_append_dropWhile isWsC (c :: t)
      · have hlen : t.length ≤ n := by simp at h; omega
        have hrec := ih t hlen (fun hm => hnl (List.mem_cons_of_mem c hm))
        simp [replaceNlRunsGo, hc, hrec]

theorem trimLinesGo_id_false (fuel : Nat) :
    ∀ s : Str, s.length ≤ fuel → '\n' ∉ s → lastNonWs s = true →
      trimLinesGo fuel false s = s := by
  induction fuel with
  | zero => intro s h _ _; simp [trimLinesGo]
  | succ n ih =>
    intro s h hnl hl
    cases s with
    | nil => simp [trimLinesGo]
    | cons c t =>
      by_cases hc : isWsC c
      · have hdne : (c :: t).dropWhile isWsC ≠ [] :=
          dropWhile_ne_nil hl (by simp)
        have hct : ((c :: t).takeWhile isWsC).contains '\n' = false :=
          contains_eq_false_of_not_mem (not_mem_takeWhile hnl)
        have hlen : ((c :: t).dropWhile isWsC).length ≤ n := by
          rw [dropWhile_cons_pos hc]
          have := dropWhile_length_le isWsC t
          simp at h; omega
        have hld : lastNonWs ((c :: t).dropWhile isWsC) = true :=
          lastNonWs_dropWhile hl
        have hrec := ih _ hlen (not_mem_dropWhile hnl) hld
        simp only [trimLinesGo, hc, if_pos, Bool.false_eq_true, if_neg,
          not_false_iff, hdne, hct, hrec]
        exact List.takeWhile_append_dropWhile isWsC (c :: t)
      · have hlen : t.length ≤ n := by simp at h; omega
        cases ht : t with
        | nil =>
          subst ht
          cases n <;> simp [trimLinesGo, hc]
        | cons d u =>
          have htne : t ≠ [] := by rw [ht]; simp
          have hlt : lastNonWs t = true := by rwa [lastNonWs_cons htne] at hl
          rw [← ht]
          have hrec := ih t hlen (fun hm => hnl (List.mem_cons_of_mem c hm)) hlt
          simp [trimLinesGo, hc, hrec]

theorem trimLinesGm_id {s : Str} (hh : headNonWs s = true) (hnl : '\n' ∉ s)
    (hl : lastNonWs s = true) : trimLinesGm s = s := by
  cases s with
  | nil => simp [trimLinesGm, trimLinesGo]
  | cons c t =>
    simp only [headNonWs, Bool.not_eq_true'] at hh
    cases ht : t with
    | nil =>
      subst ht
      simp [trimLinesGm, trimLinesGo, hh]
    | cons d u =>
      have htne : t ≠ [] := by rw [ht]; simp
      rw [← ht]
      have hlt : lastNonWs t = true := by rwa [lastNonWs_cons htne] at hl
      have hrec := trimLinesGo_id_false t.length t le_rfl
        (fun hm => hnl (List.mem_cons_of_mem c hm)) hlt
      simp [trimLinesGm, trimLinesGo, hh, hrec]

/-- `cleanupWhitespace` is the trim-then-collapse normal form: the last two
replaces of the source are the identity on it. -/
theorem cleanupWhitespace_eq (s : Str) :
    cleanupWhitespace s = collapseWs (trimStr s) := by
  have hsp : allWsSpace (collapseWs (trimStr s)) = true :=
    collapseWsGo_allWsSpace _ _ le_rfl
  have hnl : '\n' ∉ collapseWs (trimStr s) := by
    intro hm
    have h1 := allWsSpace_no_nl hsp
    have h2 := List.elem_eq_true_of_mem hm
    simp only [List.contains] at h1
    rw [h1] at h2
    exact Bool.false_ne_true h2
  have hh : headNonWs (collapseWs (trimStr s)) = true :=
    collapseWsGo_head (headNonWs_trimStr s)
  have hl : lastNonWs (collapseWs (trimStr s)) = true :=
    collapseWsGo_last _ _ le_rfl (lastNonWs_trimStr s)
  rw [cleanupWhitespace, replaceNlRuns,
    replaceNlRunsGo_id _ _ le_rfl hnl, trimLinesGm_id hh hnl hl]

/-- The four whitespace invariants, bundled. -/
def wsInvariants (s : Str) : Prop :=
  s.contains '\n' = false ∧ noWsPair s = true ∧
    headNonWs s = true ∧ lastNonWs s = true

theorem cleanupWhitespace_wsInvariants (s : Str) :
    wsInvariants (cleanupWhitespace s) := by
  rw [cleanupWhitespace_eq]
  refine ⟨allWsSpace_no_nl (collapseWsGo_allWsSpace _ _ le_rfl),
    collapseWsGo_noWsPair _ _ le_rfl,
    collapseWsGo_head (headNonWs_trimStr s),
    collapseWsGo_last _ _ le_rfl (lastNonWs_trimStr s)⟩

theorem applyLocalCorrections_wsInvariants (s : Str) :
    wsInvariants (applyLocalCorrections s) :=
  cleanupWhitespace_wsInvariants _

/-- The output of the local pipeline is already trimmed, so the orchestrator's
final `.trim()` is the identity on it. -/
theorem trimStr_applyLocalCorrections (s : Str) :
    trimStr (applyLocalCorrections s) = applyLocalCorrections s := by
  obtain ⟨-, -, hh, hl⟩ := applyLocalCorrections_wsInvariants s
  exact trimStr_eq_self hh hl

/-! ### The local pipeline maps inputs with a non-whitespace character to
non-empty outputs: every pass preserves `hasNonWs`. -/

theorem toNat_ofNat_small {n : Nat} (h : n < 55296) : (Char.ofNat n).toNat = n := by
  unfold Char.ofNat
  rw [dif_pos (Or.inl h)]
  rfl

/-- A character whose code point lies in the ASCII letter band is not
whitespace. -/
theorem isWsC_false_of_alpha_range {x : Char} (h1 : 65 ≤ x.toNat)
    (h2 : x.toNat ≤ 122) : isWsC x = false := by
  unfold isWsC
  simp only [Bool.or_eq_false_iff, decide_eq_false_iff_not]
  refine ⟨⟨⟨⟨⟨⟨?_, ?_⟩, ?_⟩, ?_⟩, ?_⟩, ?_⟩, ?_⟩ <;>
    · intro he
      subst he
      first
      | exact absurd h1 (by decide)
      | exact absurd h2 (by decide)

theorem le_toNat_of_char_le {a c : Char} (h : a ≤ c) : a.toNat ≤ c.toNat := h

theorem lowerC_not_ws {c : Char} (h : isWsC c = false) : isWsC (lowerC c) = false := by
  unfold lowerC
  split_ifs with hc
  · simp only [Bool.and_eq_true, decide_eq_true_eq] at hc
    have h1 : (65 : Nat) ≤ c.toNat := le_toNat_of_char_le hc.1
    have h2 : c.toNat ≤ 90 := le_toNat_of_char_le hc.2
    have ht : (Char.ofNat (c.toNat + 32)).toNat = c.toNat + 32 :=
      toNat_ofNat_small (by omega)
    exact isWsC_false_of_alpha_range (by omega) (by omega)
  · exact h

theorem upperC_not_ws {c : Char} (h : isWsC c = false) : isWsC (upperC c) = false := by
  unfold upperC
  split_ifs with hc
  · simp only [Bool.and_eq_true, decide_eq_true_eq] at hc
    have h1 : (97 : Nat) ≤ c.toNat := le_toNat_of_char_le hc.1
    have h2 : c.toNat ≤ 122 := le_toNat_of_char_le hc.2
    have ht : (Char.ofNat (c.toNat - 32)).toNat = c.toNat - 32 :=
      toNat_ofNat_small (by omega)
    exact isWsC_false_of_alpha_range (by omega) (by omega)
  · exact h

theorem hasNonWs_cons (c : Char) (t : Str) :
    hasNonWs (c :: t) = (!isWsC c || hasNonWs t) := by
  simp [hasNonWs]

theorem hasNonWs_append (l m : Str) :
    hasNonWs (l ++ m) = (hasNonWs l || hasNonWs m) := by
  simp [hasNonWs]

theorem hasNonWs_dropWhile_ws (l : Str) :
    hasNonWs (l.dropWhile isWsC) = hasNonWs l := by
  induction l with
  | nil => rfl
  | cons c t ih =>
    by_cases h : isWsC c
    · rw [dropWhile_cons_pos h, ih, hasNonWs_cons]
      simp [h]
    · rw [dropWhile_cons_neg (by simp [h])]

theorem hasNonWs_takeWhile_ws (l : Str) :
    hasNonWs (l.takeWhile isWsC) = false := by
  induction l with
  | nil => rfl
  | cons c t ih =>
    by_cases h : isWsC c
    · simp only [List.takeWhile_cons, h, if_pos]
      rw [hasNonWs_cons, ih]
      simp [h]
    · simp [List.takeWhile_cons, h, hasNonWs]

theorem hasNonWs_reverse (l : Str) : hasNonWs l.reverse = hasNonWs l := by
  simp [hasNonWs]

theorem hasNonWs_trimStr (s : Str) : hasNonWs (trimStr s) = hasNonWs s := by
  rw [trimStr, trimEnd, hasNonWs_reverse, hasNonWs_dropWhile_ws, hasNonWs_reverse,
    trimStart, hasNonWs_dropWhile_ws]

theorem hasNonWs_ne_nil {s : Str} (h : hasNonWs s = true) : s ≠ [] := by
  intro he; subst he; simp [hasNonWs] at h

theorem hasNonWs_map_lowerC {s : Str} (h : hasNonWs s = true) :
    hasNonWs (s.map lowerC) = true := by
  simp only [hasNonWs, List.any_eq_true] at h ⊢
  obtain ⟨c, hc, hw⟩ := h
  exact ⟨lowerC c, List.mem_map_of_mem lowerC hc, by
    simp only [Bool.not_eq_true'] at hw ⊢
    exact lowerC_not_ws hw⟩

theorem hasNonWs_map_upperC {s : Str} (h : hasNonWs s = true) :
    hasNonWs (s.map upperC) = true := by
  simp only [hasNonWs, List.any_eq_true] at h ⊢
  obtain ⟨c, hc, hw⟩ := h
  exact ⟨upperC c, List.mem_map_of_mem upperC hc, by
    simp only [Bool.not_eq_true'] at hw ⊢
    exact upperC_not_ws hw⟩

theorem preserveCase_hasNonWs {m corr : Str} (h : hasNonWs corr = true) :
    hasNonWs (preserveCase m corr) = true := by
  unfold preserveCase
  split_ifs with h1 h2
  · exact hasNonWs_map_upperC h
  · cases corr with
    | nil => simp [hasNonWs] at h
    | cons c cs =>
      rw [hasNonWs_cons] at h
      rcases Bool.or_eq_true_iff.mp h with hc | hcs
      · simp only [Bool.not_eq_true'] at hc
        simp [capFirstLower, hasNonWs_cons, upperC_not_ws hc]
      · simp [capFirstLower, hasNonWs_cons, hasNonWs_map_lowerC hcs]
  · exact hasNonWs_map_lowerC h

theorem replaceWordGo_hasNonWs (typo corr : Str) (hcorr : hasNonWs corr = true)
    (fuel : Nat) :
    ∀ (prevW : Bool) (s : Str), s.length ≤ fuel → hasNonWs s = true →
      hasNonWs (replaceWordGo typo corr fuel prevW s) = true := by
  induction fuel with
  | zero =>
    intro pw s hlen hs
    cases s with
    | nil => simpa [replaceWordGo] using hs
    | cons => simp at hlen
  | succ n ih =>
    intro pw s hlen hs
    cases s with
    | nil => simpa [replaceWordGo] using hs
    | cons c t =>
      have htn : t.length ≤ n := by simp at hlen; omega
      have hcons : (!isWsC c || hasNonWs (replaceWordGo typo corr n (isWordC c) t))
          = true := by
        rw [hasNonWs_cons] at hs
        rcases Bool.or_eq_true_iff.mp hs with hc | ht
        · simp [hc]
        · simp [ih _ t htn ht]
      simp only [replaceWordGo]
      split_ifs with h1
      · cases hsp : splitCI typo (c :: t) with
        | none => simpa [hsp, hasNonWs_cons] using hcons
        | some p =>
          obtain ⟨m, rest⟩ := p
          simp only [hsp]
          split_ifs with h2
          · rw [hasNonWs_append]
            simp [preserveCase_hasNonWs hcorr]
          · simpa [hasNonWs_cons] using hcons
      · simpa [hasNonWs_cons] using hcons

theorem foldl_replaceWord_hasNonWs (L : List (Str × Str))
    (hL : ∀ p ∈ L, hasNonWs p.2 = true) :
    ∀ s : Str, hasNonWs s = true →
      hasNonWs (L.foldl (fun acc p => replaceWord p.1 p.2 acc) s) = true := by
  induction L with
  | nil => intro s h; exact h
  | cons p L ih =>
    intro s h
    simp only [List.foldl_cons]
    exact ih (fun q hq => hL q (List.mem_cons_of_mem p hq)) _
      (replaceWordGo_hasNonWs p.1 p.2 (hL p (List.mem_cons_self p L)) _ _ _ le_rfl h)

theorem fixTypos_hasNonWs {s : Str} (h : hasNonWs s = true) :
    hasNonWs (fixTypos s) = true :=
  foldl_replaceWord_hasNonWs typoList (by decide) s h

theorem hasNonWs_cons_of_char {c : Char} (hc : isWsC c = false) (t : Str) :
    hasNonWs (c :: t) = true := by
  rw [hasNonWs_cons, hc]
  simp

theorem hasNonWs_ite (c : Prop) [Decidable c] {X Y : Str}
    (hX : hasNonWs X = true) (hY : hasNonWs Y = true) :
    hasNonWs (if c then X else Y) = true := by
  split_ifs <;> assumption

theorem aToAnGo_hasNonWs (fuel : Nat) :
    ∀ (prevW : Bool) (s : Str), s.length ≤ fuel → hasNonWs s = true →
      hasNonWs (aToAnGo fuel prevW s) = true := by
  induction fuel with
  | zero =>
    intro pw s hlen hs
    cases s with
    | nil => simpa [aToAnGo] using hs
    | cons => simp at hlen
  | succ n ih =>
    intro pw s hlen hs
    cases s with
    | nil => simpa [aToAnGo] using hs
    | cons c t =>
      have htn : t.length ≤ n := by simp at hlen; omega
      simp only [aToAnGo]
      split_ifs with h1
      · split <;> first
        | exact hasNonWs_cons_of_char (by decide) _
        | split_ifs <;> exact hasNonWs_cons_of_char (by decide) _
      · rw [hasNonWs_cons] at hs ⊢
        rcases Bool.or_eq_true_iff.mp hs with hc | ht
        · simp [hc]
        · simp [ih _ t htn ht]

theorem anToAGo_hasNonWs (fuel : Nat) :
    ∀ (prevW : Bool) (s : Str), s.length ≤ fuel → hasNonWs s = true →
      hasNonWs (anToAGo fuel prevW s) = true := by
  induction fuel with
  | zero =>
    intro pw s hlen hs
    cases s with
    | nil => simpa [anToAGo] using hs
    | cons => simp at hlen
  | succ n ih =>
    intro pw s hlen hs
    cases s with
    | nil => simpa [anToAGo] using hs
    | cons c t =>
      have htn : t.length ≤ n := by simp at hlen; omega
      simp only [anToAGo]
      by_cases h1 : c = 'a' ∧ pw = false ∧ t.head? = some 'n'
      · rw [if_pos h1]
        refine hasNonWs_ite _ (hasNonWs_cons_of_char (by decide) _) ?_
        cases List.dropWhile isWsC t.tail with
        | cons v r3 =>
          refine hasNonWs_ite _ (hasNonWs_cons_of_char (by decide) _)
            (hasNonWs_ite _ ?_ (hasNonWs_cons_of_char (by decide) _))
          cases (List.takeWhile isWsC t.tail).getLast? with
          | some w => exact hasNonWs_cons_of_char (by decide) _
          | none => exact hasNonWs_cons_of_char (by decide) _
        | nil =>
          refine hasNonWs_ite _ ?_ (hasNonWs_cons_of_char (by decide) _)
          cases (List.takeWhile isWsC t.tail).getLast? with
          | some w => exact hasNonWs_cons_of_char (by decide) _
          | none => exact hasNonWs_cons_of_char (by decide) _
      · rw [if_neg h1]
        rw [hasNonWs_cons] at hs ⊢
        rcases Bool.or_eq_true_iff.mp hs with hc | ht
        · simp [hc]
        · simp [ih _ t htn ht]

theorem iStartGo_hasNonWs (fuel : Nat) :
    ∀ (prevW : Bool) (s : Str), s.length ≤ fuel → hasNonWs s = true →
      hasNonWs (iStartGo fuel prevW s) = true := by
  induction fuel with
  | zero =>
    intro pw s hlen hs
    cases s with
    | nil => simpa [iStartGo] using hs
    | cons => simp at hlen
  | succ n ih =>
    intro pw s hlen hs
    cases s with
    | nil => simpa [iStartGo] using hs
    | cons c t =>
      have htn : t.length ≤ n := by simp at hlen; omega
      simp only [iStartGo]
      split_ifs with h1 h2
      · obtain ⟨hci, -⟩ := h1
        subst hci
        exact hasNonWs_cons_of_char (by decide) _
      · exact hasNonWs_cons_of_char (by decide) _
      · rw [hasNonWs_cons] at hs ⊢
        rcases Bool.or_eq_true_iff.mp hs with hc | ht
        · simp [hc]
        · simp [ih _ t htn ht]

theorem iMidGo_hasNonWs (fuel : Nat) :
    ∀ s : Str, s.length ≤ fuel → hasNonWs s = true →
      hasNonWs (iMidGo fuel s) = true := by
  induction fuel with
  | zero =>
    intro s hlen hs
    cases s with
    | nil => simpa [iMidGo] using hs
    | cons => simp at hlen
  | succ n ih =>
    intro s hlen hs
    cases s with
    | nil => simpa [iMidGo] using hs
    | cons c t =>
      have htn : t.length ≤ n := by simp at hlen; omega
      simp only [iMidGo]
      split_ifs with h1
      · have hdrop : hasNonWs ((c :: t).dropWhile isWsC) = true := by
          rw [hasNonWs_dropWhile_ws]; exact hs
        have hdlen : ((c :: t).dropWhile isWsC).length ≤ n := by
          rw [dropWhile_cons_pos h1]
          have := dropWhile_length_le isWsC t
          omega
        have hgen : hasNonWs ((c :: t).takeWhile isWsC ++
            iMidGo n ((c :: t).dropWhile isWsC)) = true := by
          rw [hasNonWs_append, hasNonWs_takeWhile_ws, ih _ hdlen hdrop]
          simp
        split
        · split_ifs with h2
          · rw [hasNonWs_append, hasNonWs_takeWhile_ws]
            rw [hasNonWs_cons_of_char (by decide) _]
            simp
          · rw [hasNonWs_cons, hasNonWs_cons_of_char (by decide) _]
            simp
        · exact hgen
      · rw [hasNonWs_cons] at hs ⊢
        rcases Bool.or_eq_true_iff.mp hs with hc | ht
        · simp [hc]
        · simp [ih t htn ht]

theorem iEndGo_hasNonWs (fuel : Nat) :
    ∀ s : Str, s.length ≤ fuel → hasNonWs s = true →
      hasNonWs (iEndGo fuel s) = true := by
  induction fuel with
  | zero =>
    intro s hlen hs
    cases s with
    | nil => simpa [iEndGo] using hs
    | cons => simp at hlen
  | succ n ih =>
    intro s hlen hs
    cases s with
    | nil => simpa [iEndGo] using hs
    | cons c t =>
      have htn : t.length ≤ n := by simp at hlen; omega
      simp only [iEndGo]
      split_ifs with h1
      · have hdrop : hasNonWs ((c :: t).dropWhile isWsC) = true := by
          rw [hasNonWs_dropWhile_ws]; exact hs
        have hdlen : ((c :: t).dropWhile isWsC).length ≤ n := by
          rw [dropWhile_cons_pos h1]
          have := dropWhile_length_le isWsC t
          omega
        have hgen : hasNonWs ((c :: t).takeWhile isWsC ++
            iEndGo n ((c :: t).dropWhile isWsC)) = true := by
          rw [hasNonWs_append, hasNonWs_takeWhile_ws, ih _ hdlen hdrop]
          simp
        split
        · decide
        · exact hgen
      · rw [hasNonWs_cons] at hs ⊢
        rcases Bool.or_eq_true_iff.mp hs with hc | ht
        · simp [hc]
        · simp [ih t htn ht]

theorem collapseRunsGo_hasNonWs (fuel : Nat) :
    ∀ s : Str, s.length ≤ fuel → hasNonWs s = true →
      hasNonWs (collapseRunsGo fuel s) = true := by
  induction fuel with
  | zero =>
    intro s hlen hs
    cases s with
    | nil => simpa [collapseRunsGo] using hs
    | cons => simp at hlen
  | succ n ih =>
    intro s hlen hs
    cases s with
    | nil => simpa [collapseRunsGo] using hs
    | cons c t =>
      have htn : t.length ≤ n := by simp at hlen; omega
      have hgen : hasNonWs (c :: collapseRunsGo n t) = true := by
        rw [hasNonWs_cons] at hs ⊢
        rcases Bool.or_eq_true_iff.mp hs with hc | ht
        · simp [hc]
        · simp [ih t htn ht]
      simp only [collapseRunsGo]
      split_ifs with h1 h2
      · have hdrop : hasNonWs ((c :: t).dropWhile isWsC) = true := by
          rw [hasNonWs_dropWhile_ws]; exact hs
        have hdlen : ((c :: t).dropWhile isWsC).length ≤ n := by
          rw [dropWhile_cons_pos h1]
          have := dropWhile_length_le isWsC t
          omega
        rw [hasNonWs_cons, ih _ hdlen hdrop]
        simp
      · exact hgen
      · exact hgen

theorem wsPunctGo_hasNonWs (p : Char) (hp : isWsC p = false) (fuel : Nat) :
    ∀ s : Str, s.length ≤ fuel → hasNonWs s = true →
      hasNonWs (wsPunctGo p fuel s) = true := by
  induction fuel with
  | zero =>
    intro s hlen hs
    cases s with
    | nil => simpa [wsPunctGo] using hs
    | cons => simp at hlen
  | succ n ih =>
    intro s hlen hs
    cases s with
    | nil => simpa [wsPunctGo] using hs
    | cons c t =>
      have htn : t.length ≤ n := by simp at hlen; omega
      simp only [wsPunctGo]
      split_ifs with h1
      · have hdrop : hasNonWs ((c :: t).dropWhile isWsC) = true := by
          rw [hasNonWs_dropWhile_ws]; exact hs
        have hdlen : ((c :: t).dropWhile isWsC).length ≤ n := by
          rw [dropWhile_cons_pos h1]
          have := dropWhile_length_le isWsC t
          omega
        cases hd : (c :: t).dropWhile isWsC with
        | nil => rw [hd] at hdrop; simp [hasNonWs] at hdrop
        | cons x r3 =>
          rw [hd] at hdrop hdlen
          refine hasNonWs_ite _ (hasNonWs_cons_of_char hp _) ?_
          rw [hasNonWs_append, hasNonWs_takeWhile_ws, ih _ hdlen hdrop]
          simp
      · rw [hasNonWs_cons] at hs ⊢
        rcases Bool.or_eq_true_iff.mp hs with hc | ht
        · simp [hc]
        · simp [ih t htn ht]

theorem capScanGo_hasNonWs (fuel : Nat) :
    ∀ s : Str, s.length ≤ fuel → hasNonWs s = true →
      hasNonWs (capScanGo fuel s) = true := by
  induction fuel with
  | zero =>
    intro s hlen hs
    cases s with
    | nil => simpa [capScanGo] using hs
    | cons => simp at hlen
  | succ n ih =>
    intro s hlen hs
    cases s with
    | nil => simpa [capScanGo] using hs
    | cons c t =>
      have htn : t.length ≤ n := by simp at hlen; omega
      simp only [capScanGo]
      by_cases h1 : c = '.' ∧ t.head? = some ' ' ∧ t.tail ≠ []
      · rw [if_pos h1]
        cases ht : t.tail with
        | cons d rest =>
          refine hasNonWs_ite _ (hasNonWs_cons_of_char (by decide) _)
            (hasNonWs_cons_of_char (by decide) _)
        | nil => exact absurd ht h1.2.2
      · rw [if_neg h1]
        rw [hasNonWs_cons] at hs ⊢
        rcases Bool.or_eq_true_iff.mp hs with hc | ht
        · simp [hc]
        · simp [ih t htn ht]

theorem isLowerAlpha_not_ws {c : Char} (h : isLowerAlpha c = true) :
    isWsC c = false := by
  simp only [isLowerAlpha, Bool.and_eq_true, decide_eq_true_eq] at h
  have h1 : (97 : Nat) ≤ c.toNat := le_toNat_of_char_le h.1
  have h2 : c.toNat ≤ (122 : Nat) := le_toNat_of_char_le h.2
  exact isWsC_false_of_alpha_range (by omega) h2

theorem capSent_hasNonWs {s : Str} (hs : hasNonWs s = true) :
    hasNonWs (capSent s) = true := by
  cases s with
  | nil => simpa [capSent] using hs
  | cons c t =>
    simp only [capSent]
    split_ifs with h1
    · exact hasNonWs_cons_of_char (upperC_not_ws (isLowerAlpha_not_ws h1)) _
    · exact capScanGo_hasNonWs _ _ le_rfl hs

theorem collapseWsGo_hasNonWs (fuel : Nat) :
    ∀ s : Str, s.length ≤ fuel → hasNonWs s = true →
      hasNonWs (collapseWsGo fuel s) = true := by
  induction fuel with
  | zero =>
    intro s hlen hs
    cases s with
    | nil => simpa [collapseWsGo] using hs
    | cons => simp at hlen
  | succ n ih =>
    intro s hlen hs
    cases s with
    | nil => simpa [collapseWsGo] using hs
    | cons c t =>
      have htn : t.length ≤ n := by simp at hlen; omega
      simp only [collapseWsGo]
      split_ifs with h1
      · have hdrop : hasNonWs (t.dropWhile isWsC) = true := by
          rw [hasNonWs_dropWhile_ws]
          rw [hasNonWs_cons, h1] at hs
          simpa using hs
        have hdlen : (t.dropWhile isWsC).length ≤ n := by
          have := dropWhile_length_le isWsC t
          omega
        rw [hasNonWs_cons, ih _ hdlen hdrop]
        simp
      · rw [hasNonWs_cons] at hs ⊢
        rcases Bool.or_eq_true_iff.mp hs with hc | ht
        · simp [hc]
        · simp [ih t htn ht]

/-- Every pass of the local pipeline preserves the presence of a
non-whitespace character, so a non-blank input yields a non-empty output. -/
theorem applyLocalCorrections_hasNonWs {s : Str} (h : hasNonWs s = true) :
    hasNonWs (applyLocalCorrections s) = true := by
  have h1 : hasNonWs (fixTypos s) = true := fixTypos_hasNonWs h
  have h2 : hasNonWs (applyGrammarPatterns (fixTypos s)) = true := by
    rw [applyGrammarPatterns]
    exact capSent_hasNonWs
      (wsPunctGo_hasNonWs '!' (by decide) _ _ le_rfl
        (wsPunctGo_hasNonWs '?' (by decide) _ _ le_rfl
          (wsPunctGo_hasNonWs ',' (by decide) _ _ le_rfl
            (wsPunctGo_hasNonWs '.' (by decide) _ _ le_rfl
              (collapseRunsGo_hasNonWs _ _ le_rfl
                (iEndGo_hasNonWs _ _ le_rfl
                  (iMidGo_hasNonWs _ _ le_rfl
                    (iStartGo_hasNonWs _ _ _ le_rfl
                      (anToAGo_hasNonWs _ _ _ le_rfl
                        (aToAnGo_hasNonWs _ _ _ le_rfl h1))))))))))
  rw [applyLocalCorrections, cleanupWhitespace_eq]
  exact collapseWsGo_hasNonWs _ _ le_rfl (by rw [hasNonWs_trimStr]; exact h2)

theorem applyLocalCorrections_ne_nil {s : Str} (h : hasNonWs s = true) :
    applyLocalCorrections s ≠ [] :=
  hasNonWs_ne_nil (applyLocalCorrections_hasNonWs h)

/-! ### Word-boundary safety of the typo pass. -/

/-- Does `typo` have a whole-word case-insensitive occurrence in the string
(the match condition of `replaceWordGo`, scanned over every position)? -/
def hasWholeWordGo (typo : Str) : Nat → Bool → Str → Bool
  | 0, _, _ => false
  | _ + 1, _, [] => false
  | fuel + 1, prevW, c :: cs =>
    (if prevW = false ∧ typo ≠ [] then
       match splitCI typo (c :: cs) with
       | some (_, rest) => boundaryAfter rest
       | none => false
     else false) || hasWholeWordGo typo fuel (isWordC c) cs

/-- `\btypo\b` (case-insensitive) has a match somewhere in `s`. -/
def hasWholeWord (typo s : Str) : Bool := hasWholeWordGo typo s.length false s

theorem replaceWordGo_id (typo corr : Str) (fuel : Nat) :
    ∀ (prevW : Bool) (s : Str), s.length ≤ fuel →
      hasWholeWordGo typo fuel prevW s = false →
      replaceWordGo typo corr fuel prevW s = s := by
  induction fuel with
  | zero =>
    intro pw s hlen hw
    simp [replaceWordGo]
  | succ n ih =>
    intro pw s hlen hw
    cases s with
    | nil => simp [replaceWordGo]
    | cons c t =>
      have htn : t.length ≤ n := by simp at hlen; omega
      simp only [hasWholeWordGo, Bool.or_eq_false_iff] at hw
      obtain ⟨hw1, hw2⟩ := hw
      simp only [replaceWordGo]
      split_ifs with h1
      · rw [if_pos h1] at hw1
        cases hsp : splitCI typo (c :: t) with
        | none => simp only [hsp]; rw [ih _ t htn hw2]
        | some pr =>
          obtain ⟨m, rest⟩ := pr
          rw [hsp] at hw1
          simp only [hsp]
          simp only [] at hw1
          rw [if_neg (by simp [hw1]), ih _ t htn hw2]
      · rw [ih _ t htn hw2]

theorem foldl_replaceWord_id (L : List (Str × Str)) (s : Str)
    (hL : ∀ p ∈ L, hasWholeWord p.1 s = false) :
    L.foldl (fun acc p => replaceWord p.1 p.2 acc) s = s := by
  induction L with
  | nil => rfl
  | cons p L ih =>
    have hstep : replaceWord p.1 p.2 s = s :=
      replaceWordGo_id p.1 p.2 s.length false s le_rfl (hL p (List.mem_cons_self p L))
    simp only [List.foldl_cons, hstep]
    exact ih (fun q hq => hL q (List.mem_cons_of_mem p hq))

/-- If no typo-table entry occurs as a whole word in `s` (every occurrence of
an entry is a proper substring of a longer word), the typo pass is the
identity on `s`. -/
theorem fixTypos_id {s : Str}
    (h : typoList.all (fun p => !hasWholeWord p.1 s) = true) :
    fixTypos s = s := by
  rw [fixTypos]
  refine foldl_replaceWord_id typoList s ?_
  intro p hp
  have := List.all_eq_true.mp h p hp
  simpa using this

/-! ### Helper facts for the defaulting engine. -/

theorem ne_nil_of_isEmpty_false {s : Str} (h : s.isEmpty = false) : s ≠ [] := by
  cases s with
  | nil => simp at h
  | cons => simp

theorem jsOrS_isEmpty_false (o : Option Str) {d : Str} (hd : d.isEmpty = false) :
    (jsOrS o d).isEmpty = false := by
  cases o with
  | none => exact hd
  | some s =>
    simp only [jsOrS]
    split_ifs with hs
    · exact hd
    · simpa using hs

theorem firstMatchTbl_mem {tbl : List (List Str × Str)} {l r : Str}
    (h : firstMatchTbl tbl l = some r) : r ∈ tbl.map Prod.snd := by
  induction tbl with
  | nil => simp [firstMatchTbl] at h
  | cons e rest ih =>
    obtain ⟨alts, res⟩ := e
    simp only [firstMatchTbl] at h
    split_ifs at h with hc
    · simp at h
      simp [h]
    · simp [ih h]

/-! ### Claim theorems. -/

/-- Claim C10 (confirmed): for every input, the output of the whitespace
cleanup pass (and hence of the whole local-correction pipeline) contains no
newline, no run of two or more consecutive whitespace characters, and no
leading or trailing whitespace. -/
theorem cleanupWhitespace_invariants (s : Str) :
    ((cleanupWhitespace s).contains '\n' = false ∧
      noWsPair (cleanupWhitespace s) = true ∧
      headNonWs (cleanupWhitespace s) = true ∧
      lastNonWs (cleanupWhitespace s) = true) ∧
    ((applyLocalCorrections s).contains '\n' = false ∧
      noWsPair (applyLocalCorrections s) = true ∧
      headNonWs (applyLocalCorrections s) = true ∧
      lastNonWs (applyLocalCorrections s) = true) :=
  ⟨cleanupWhitespace_wsInvariants s, applyLocalCorrections_wsInvariants s⟩

/-- Claim C3 (confirmed): if the cleaning steps of `extractEnhancedPrompt`
reduce the reply below the 20-character floor, the function returns the
original trimmed reply, and the result is never empty when the trimmed reply
is non-empty (in particular for a reply that is only an intro phrase). -/
theorem extractEnhancedPrompt_safeguard (r : Str) :
    ((cleanCandidate r).length < 20 → extractEnhancedPrompt r = trimStr r) ∧
    (trimStr r ≠ [] → extractEnhancedPrompt r ≠ []) := by
  constructor
  · intro h
    simp [extractEnhancedPrompt, h]
  · intro h
    rw [extractEnhancedPrompt]
    split_ifs with hc
    · exact h
    · intro he
      rw [he] at hc
      simp at hc

/-- The fabricated remote reply consisting solely of an intro phrase. -/
def introOnlyReply : Str := heres ++ " the enhanced prompt:".data

/-- Witness for C3: the intro-phrase-only reply is cleaned to below the floor,
so the original trimmed reply is returned and the result is non-empty. -/
theorem extractEnhancedPrompt_safeguard_witness :
    extractEnhancedPrompt introOnlyReply = trimStr introOnlyReply ∧
      extractEnhancedPrompt introOnlyReply ≠ [] :=
  ⟨(extractEnhancedPrompt_safeguard introOnlyReply).1 (by decide),
   (extractEnhancedPrompt_safeguard introOnlyReply).2 (by decide)⟩

/-- Claim C5 (confirmed): with a blank (or unset) service key, the remote
client fails with the typed configuration error and issues no HTTP request
(the request counter stays `0`). -/
theorem callExternalLLM_blank_key (config : ClarityConfig) (net : FetchOutcome)
    (h : trimStr config.geminiApiKey = []) :
    callExternalLLM config net =
      (Except.error RemoteEnrichmentError.configuration, 0) := by
  have hv : validateApiKey config = false := by
    simp [validateApiKey, h]
  simp [callExternalLLM, hv]

/-- Witness for C5 at a whitespace-only key and a would-be-successful fetch. -/
theorem callExternalLLM_blank_key_witness :
    callExternalLLM ⟨"  ".data⟩ (FetchOutcome.success [⟨some ⟨[⟨"x".data⟩]⟩⟩]) =
      (Except.error RemoteEnrichmentError.configuration, 0) :=
  callExternalLLM_blank_key _ _ (by decide)

/-- Claim C7 (confirmed): when the (lower-cased) input contains none of the
fixed task verbs, the analyzer returns the empty record: no task and no
role/format/constraint/tone detection. -/
theorem analyze_gate_no_task (x : Str)
    (h : taskKeywords.all (fun k => !containsSub k.data (toLowerL x)) = true) :
    analyzePromptComponents x = {} := by
  have hany : (taskKeywords.any fun k => containsSub k.data (toLowerL x)) = false := by
    rw [List.any_eq_false]
    intro k hk
    have := List.all_eq_true.mp h k hk
    simpa using this
  simp [analyzePromptComponents, hany]

/-- Witness for C7: `analyze("blue sky today")` yields no structured task. -/
theorem analyze_gate_no_task_witness :
    analyzePromptComponents "blue sky today".data = {} :=
  analyze_gate_no_task _ (by decide)

/-- Claim C9 (confirmed): the defaulting engine never overwrites a detected
field: every input field that is present and non-empty appears unchanged in
the output; `constraints` and `examples` are always passed through. -/
theorem applyDefaults_preserves_detected (a : PromptParts) :
    (∀ s, a.task = some s → s ≠ [] →
      (applyDefaultsForMissingComponents a).task = s) ∧
    (∀ s, a.role = some s → s ≠ [] →
      (applyDefaultsForMissingComponents a).role = some s) ∧
    (applyDefaultsForMissingComponents a).constraints = a.constraints ∧
    (applyDefaultsForMissingComponents a).examples = a.examples ∧
    (∀ s, a.outputFormat = some s → s ≠ [] →
      (applyDefaultsForMissingComponents a).outputFormat = some s) ∧
    (∀ s, a.tone = some s → s ≠ [] →
      (applyDefaultsForMissingComponents a).tone = some s) := by
  refine ⟨?_, ?_, rfl, rfl, ?_, ?_⟩
  · intro s hsome hne
    have : s.isEmpty = false := by
      cases s with
      | nil => exact absurd rfl hne
      | cons => rfl
    simp [applyDefaultsForMissingComponents, jsOrS, hsome, this]
  · intro s hsome hne
    have htr : truthyS (some s) = true := by
      simp only [truthyS, Bool.not_eq_true']
      cases s with
      | nil => exact absurd rfl hne
      | cons => rfl
    simp [applyDefaultsForMissingComponents, roleDefaultPair, hsome, htr]
  · intro s hsome hne
    have htr : truthyS (some s) = true := by
      simp only [truthyS, Bool.not_eq_true']
      cases s with
      | nil => exact absurd rfl hne
      | cons => rfl
    simp [applyDefaultsForMissingComponents, formatDefaultPair, hsome, htr]
  · intro s hsome hne
    have htr : truthyS (some s) = true := by
      simp only [truthyS, Bool.not_eq_true']
      cases s with
      | nil => exact absurd rfl hne
      | cons => rfl
    simp [applyDefaultsForMissingComponents, toneDefaultPair, hsome, htr]

/-- A fully detected analysis, used as the C9 witness input. -/
def fullAnalysis : PromptParts :=
  { role := some "A skilled software developer".data,
    task := some "Write a parser".data,
    constraints := some "Use only the standard library".data,
    examples := some "like the sample".data,
    outputFormat := some "Code block".data,
    tone := some "Concise".data,
    inferredMissingDetails := some [] }

/-- Witness for C9: on a fully detected analysis every field survives. -/
theorem applyDefaults_preserves_detected_witness :
    (applyDefaultsForMissingComponents fullAnalysis).task = "Write a parser".data ∧
    (applyDefaultsForMissingComponents fullAnalysis).role =
      some "A skilled software developer".data ∧
    (applyDefaultsForMissingComponents fullAnalysis).constraints =
      some "Use only the standard library".data ∧
    (applyDefaultsForMissingComponents fullAnalysis).examples =
      some "like the sample".data ∧
    (applyDefaultsForMissingComponents fullAnalysis).outputFormat =
      some "Code block".data ∧
    (applyDefaultsForMissingComponents fullAnalysis).tone = some "Concise".data := by
  obtain ⟨h1, h2, h3, h4, h5, h6⟩ := applyDefaults_preserves_detected fullAnalysis
  exact ⟨h1 _ rfl (by decide), h2 _ rfl (by decide), h3, h4,
    h5 _ rfl (by decide), h6 _ rfl (by decide)⟩

/-- Claim C1 (corrected/amended): whenever the remote client fails, the
orchestrator returns exactly the locally corrected text and never throws;
the result is non-empty whenever the input contains a non-whitespace
character (the original claim asked for non-emptiness on every non-empty
input, which fails on whitespace-only inputs). -/
theorem improvePrompt_remote_failure (x : Str)
    (llm : Str → Except RemoteEnrichmentError Str) (e : RemoteEnrichmentError)
    (h : llm (applyLocalCorrections x) = Except.error e) :
    improvePrompt x true llm = applyLocalCorrections x ∧
      (hasNonWs x = true → improvePrompt x true llm ≠ []) := by
  have heq : improvePrompt x true llm = applyLocalCorrections x := by
    simp [improvePrompt, h, trimStr_applyLocalCorrections]
  refine ⟨heq, fun hx => ?_⟩
  rw [heq]
  exact applyLocalCorrections_ne_nil hx

/-- Witness for C1 (amended) at a concrete input and failing remote client. -/
theorem improvePrompt_remote_failure_witness :
    improvePrompt "teh prompt".data true
        (fun _ => Except.error RemoteEnrichmentError.noCandidates) =
      applyLocalCorrections "teh prompt".data ∧
    improvePrompt "teh prompt".data true
        (fun _ => Except.error RemoteEnrichmentError.noCandidates) ≠ [] := by
  obtain ⟨h1, h2⟩ := improvePrompt_remote_failure "teh prompt".data
    (fun _ => Except.error RemoteEnrichmentError.noCandidates)
    RemoteEnrichmentError.noCandidates rfl
  exact ⟨h1, h2 (by decide)⟩

/-- Counterexample for C1 as stated: the whitespace-only input `" "` is
non-empty, yet under a remote failure `improvePrompt` returns the empty
string (the local correction of `" "` is empty). -/
theorem improvePrompt_nonempty_cex :
    (" ".data ≠ ([] : Str)) ∧
      improvePrompt " ".data true
        (fun _ => Except.error (RemoteEnrichmentError.transport 500 "boom".data))
        = [] := by
  constructor
  · decide
  · decide

/-- Claim C2 (corrected/amended): the lexical corrector is idempotent on the
specification's representative inputs; it is not idempotent in general,
because the `a`-to-`an` grammar rewrite can create the standalone token
`an`, which the typo table then maps to `and` on a second pass. -/
theorem correct_idempotent_representatives :
    (applyLocalCorrections (applyLocalCorrections
        "plese writ a functoin taht caluclates fibonnaci".data) =
      applyLocalCorrections "plese writ a functoin taht caluclates fibonnaci".data) ∧
    (applyLocalCorrections (applyLocalCorrections "TEH".data) =
      applyLocalCorrections "TEH".data) ∧
    (applyLocalCorrections (applyLocalCorrections "Teh".data) =
      applyLocalCorrections "Teh".data) ∧
    (applyLocalCorrections (applyLocalCorrections "teh".data) =
      applyLocalCorrections "teh".data) ∧
    (applyLocalCorrections (applyLocalCorrections "blue sky today".data) =
      applyLocalCorrections "blue sky today".data) := by
  refine ⟨by decide, by decide, by decide, by decide, by decide⟩

/-- Counterexample for C2 as stated: `correct("a e") = "An e"` but
`correct("An e") = "And e"`, so `correct` is not idempotent on all inputs. -/
theorem correct_not_idempotent_cex :
    applyLocalCorrections (applyLocalCorrections "a e".data) ≠
      applyLocalCorrections "a e".data := by
  decide

/-- Claim C4 (corrected/amended): `correct("TEH") = "THE"` and
`correct("Teh") = "The"`; the typo pass maps `"teh"` to `"the"`, but the
full corrector returns `"The"` because the sentence-capitalization rewrite
uppercases the first letter. -/
theorem correct_case_preservation :
    applyLocalCorrections "TEH".data = "THE".data ∧
    applyLocalCorrections "Teh".data = "The".data ∧
    fixTypos "teh".data = "the".data ∧
    applyLocalCorrections "teh".data = "The".data := by
  refine ⟨by decide, by decide, by decide, by decide⟩

/-- Counterexample for C4 as stated: `correct("teh")` is `"The"`, not the
claimed `"the"`. -/
theorem correct_teh_cex :
    applyLocalCorrections "teh".data ≠ "the".data ∧
      applyLocalCorrections "teh".data = "The".data := by
  refine ⟨by decide, by decide⟩

/-- Claim C8 (corrected/amended): the typo pass matches whole words only:
on any input in which no typo-table entry occurs as a whole word (every
occurrence is a proper substring of a longer word) the typo pass is the
identity; in particular `fixTypos("anadditional") = "anadditional"`, and
the full corrector only applies sentence capitalization to it. -/
theorem fixTypos_word_boundary (s : Str)
    (h : typoList.all (fun p => !hasWholeWord p.1 s) = true) :
    fixTypos s = s ∧
      fixTypos "anadditional".data = "anadditional".data ∧
      applyLocalCorrections "anadditional".data = "Anadditional".data :=
  ⟨fixTypos_id h, by decide, by decide⟩

/-- Witness for C8 (amended): no typo-table entry matches a whole word of
`"anadditional"`, so the typo pass leaves it unchanged. -/
theorem fixTypos_word_boundary_witness :
    fixTypos "anadditional".data = "anadditional".data ∧
      applyLocalCorrections "anadditional".data = "Anadditional".data :=
  ⟨(fixTypos_word_boundary "anadditional".data (by decide)).2.1,
   (fixTypos_word_boundary "anadditional".data (by decide)).2.2⟩

/-- Counterexample for C8 as stated: the corrector does not leave the word
`"anadditional"` unchanged — sentence capitalization rewrites it to
`"Anadditional"` (it is not, however, corrupted by the `an` typo entry). -/
theorem corrector_anadditional_cex :
    applyLocalCorrections "anadditional".data ≠ "anadditional".data := by
  decide

theorem roleDefaultPair_spec (role : Option Str) (task : Str) :
    (roleDefaultPair role task).2 = [] ∨
      ∃ r, (roleDefaultPair role task).1 = some r ∧
        (roleDefaultPair role task).2 = [roleMsg r] := by
  unfold roleDefaultPair
  split_ifs with h1
  · cases hinf : inferRoleFromTask task with
    | none => left; simp
    | some r =>
      by_cases hr : truthyS (some r) = true
      · right; exact ⟨r, by simp [hr], by simp [hr]⟩
      · left; simp [hr]
  · left; rfl

theorem formatDefaultPair_spec (fmt : Option Str) (task : Str) :
    (formatDefaultPair fmt task).2 = [] ∨
      ∃ f, (formatDefaultPair fmt task).1 = some f ∧
        (formatDefaultPair fmt task).2 = [formatMsg f] := by
  unfold formatDefaultPair
  split_ifs with h1
  · cases hinf : inferOutputFormatFromTask task with
    | none => left; simp
    | some f =>
      by_cases hf : truthyS (some f) = true
      · right; exact ⟨f, by simp [hf], by simp [hf]⟩
      · left; simp [hf]
  · left; rfl

theorem toneDefaultPair_spec (tone : Option Str) :
    (toneDefaultPair tone).2 = [] ∨
      ((toneDefaultPair tone).1 = some toneDefault ∧
        (toneDefaultPair tone).2 = [toneMsg]) := by
  unfold toneDefaultPair
  split_ifs with h1
  · right; exact ⟨rfl, rfl⟩
  · left; rfl

theorem toneDefaultPair_total (tone : Option Str) :
    ∃ t, (toneDefaultPair tone).1 = some t ∧ t ≠ [] := by
  unfold toneDefaultPair
  split_ifs with h1
  · exact ⟨toneDefault, rfl, by decide⟩
  · simp only [Bool.not_eq_true', Bool.not_eq_false] at h1
    cases htone : tone with
    | none => rw [htone] at h1; simp [truthyS] at h1
    | some s =>
      rw [htone] at h1
      simp only [truthyS] at h1
      exact ⟨s, rfl, ne_nil_of_isEmpty_false (by simpa using h1)⟩

/-- Claim C6 (confirmed): `applyDefaults` always yields a non-empty task and
a non-empty tone (with the documented fallback values), and the
`inferredMissingDetails` list records the applied defaults/inferences in
role, then output-format, then tone order. -/
theorem applyDefaults_totality_and_order (a : PromptParts) :
    (applyDefaultsForMissingComponents a).task ≠ [] ∧
    (truthyS a.task = false →
      (applyDefaultsForMissingComponents a).task = taskDefault) ∧
    (∃ t, (applyDefaultsForMissingComponents a).tone = some t ∧ t ≠ []) ∧
    (truthyS a.tone = false →
      (applyDefaultsForMissingComponents a).tone = some toneDefault) ∧
    (∃ rn fn tn,
      (applyDefaultsForMissingComponents a).inferredMissingDetails =
        a.inferredMissingDetails.getD [] ++ rn ++ fn ++ tn ∧
      (rn = [] ∨ ∃ r, (applyDefaultsForMissingComponents a).role = some r ∧
        rn = [roleMsg r]) ∧
      (fn = [] ∨ ∃ f,
        (applyDefaultsForMissingComponents a).outputFormat = some f ∧
        fn = [formatMsg f]) ∧
      (tn = [] ∨ ((applyDefaultsForMissingComponents a).tone = some toneDefault ∧
        tn = [toneMsg]))) := by
  refine ⟨?_, ?_, ?_, ?_, ?_⟩
  · exact ne_nil_of_isEmpty_false (jsOrS_isEmpty_false a.task (by decide))
  · intro h
    show jsOrS a.task taskDefault = taskDefault
    cases ht : a.task with
    | none => rfl
    | some s =>
      rw [ht] at h
      simp only [truthyS] at h
      have he : s.isEmpty = true := by simpa using h
      simp [jsOrS, he]
  · exact toneDefaultPair_total a.tone
  · intro h
    show (toneDefaultPair a.tone).1 = some toneDefault
    unfold toneDefaultPair
    rw [if_pos (by simp [h])]
  · refine ⟨(roleDefaultPair a.role (jsOrS a.task taskDefault)).2,
      (formatDefaultPair a.outputFormat (jsOrS a.task taskDefault)).2,
      (toneDefaultPair a.tone).2, rfl, ?_, ?_, ?_⟩
    · exact roleDefaultPair_spec a.role _
    · exact formatDefaultPair_spec a.outputFormat _
    · exact toneDefaultPair_spec a.tone

/-- A task-only analysis, used as the C6 witness input. -/
def taskOnlyAnalysis : PromptParts := { task := some "write a story".data }

/-- Witness for C6: on a task-only analysis the task stays non-empty, the tone
is defaulted, and the role note precedes the tone note. -/
theorem applyDefaults_totality_and_order_witness :
    (applyDefaultsForMissingComponents taskOnlyAnalysis).task ≠ [] ∧
      (applyDefaultsForMissingComponents taskOnlyAnalysis).tone =
        some toneDefault ∧
      (∃ t, (applyDefaultsForMissingComponents taskOnlyAnalysis).tone = some t ∧
        t ≠ []) := by
  obtain ⟨h1, -, h3, h4, -⟩ := applyDefaults_totality_and_order taskOnlyAnalysis
  exact ⟨h1, h4 (by decide), h3⟩

end Clarity
